import Mathlib

/-!
# Verification of `scripts/migrate_to_multiauthor.py`

A shallow embedding of the ogrants migration script: the frontmatter reader
(`parse_yaml_frontmatter`), the schema converter (`convert_to_multiauthor`)
and the frontmatter writer (`write_yaml_frontmatter`), together with proofs
settling the frozen claims about them.

Strings are modelled as Lean `String` (a wrapper around `List Char`); every
Python string operation used by the script is embedded explicitly below, so
that all reasoning reduces to ordinary list lemmas. CPython `str.strip`
removes a slightly larger set of Unicode whitespace characters than
`Char.isWhitespace`; the four characters space, tab, CR and LF covered here
are the only ones the script's data can contain.
-/

namespace Ogrants

/-- `startsGo pre l` : is `pre` an initial segment of `l`?
Embeds Python `str.startswith` (on explode views). -/
def startsGo : List Char → List Char → Bool
  | [], _ => true
  | _ :: _, [] => false
  | p :: ps, c :: cs => p == c && startsGo ps cs

/-- Python `s.startswith(pre)`. -/
def pyStartsWith (s pre : String) : Bool := startsGo pre.data s.data

/-- Python `s.endswith(suf)`. -/
def pyEndsWith (s suf : String) : Bool := startsGo suf.data.reverse s.data.reverse

/-- Characters stripped by Python `str.strip()` on this script's data. -/
def trimChars (cs : List Char) : List Char :=
  ((cs.dropWhile Char.isWhitespace).reverse.dropWhile Char.isWhitespace).reverse

/-- Python `s.strip()`. -/
def pyStrip (s : String) : String := ⟨trimChars s.data⟩

/-- Python `s[n:]`. -/
def strDrop (s : String) (n : Nat) : String := ⟨s.data.drop n⟩

/-- Python `s[:len(s)-1]` (used for `s[1:-1]` together with `strDrop`). -/
def strDropLast (s : String) : String := ⟨s.data.dropLast⟩

/-- Python `s.rstrip(';')`. -/
def rstripSemi (s : String) : String := ⟨(s.data.reverse.dropWhile (· = ';')).reverse⟩

/-- First index at which `pat` occurs in `cs` (leftmost match), like the
anchor position a non-greedy regex search finds. -/
def findSub : List Char → List Char → Option Nat
  | [], pat => if startsGo pat [] then some 0 else none
  | c :: rest, pat =>
    if startsGo pat (c :: rest) then some 0
    else (findSub rest pat).map (· + 1)

/-- Python `pat in s` (substring containment). -/
def strContains (s pat : String) : Bool := (findSub s.data pat.data).isSome

/-- Python `c in s` for a single character. -/
def containsChar (s : String) (c : Char) : Bool := s.data.contains c

/-- Worker for Python `str.split(sep)`: left-to-right non-overlapping scan.
`fuel` is an upper bound on the length of the remaining input, making the
recursion structural (so that it reduces by `rfl`/`decide`). -/
def splitGo (pat : List Char) : Nat → List Char → List (List Char)
  | _, [] => [[]]
  | 0, cs => [cs]
  | fuel + 1, c :: rest =>
    if startsGo pat (c :: rest) then
      [] :: splitGo pat fuel ((c :: rest).drop pat.length)
    else
      match splitGo pat fuel rest with
      | [] => [[c]]
      | p :: ps => (c :: p) :: ps

/-- Python `s.split(sep)` for a non-empty literal `sep`. -/
def splitSub (pat cs : List Char) : List (List Char) := splitGo pat cs.length cs

/-- Python `s.split(sep)` on strings. -/
def pySplit (s sep : String) : List String := (splitSub sep.data s.data).map (⟨·⟩)

/-- The characters of `'\n'.join(lines)` (Python `str.join` with `"\n"`). -/
def intercalateNL : List (List Char) → List Char
  | [] => []
  | l :: ls =>
    match ls with
    | [] => l
    | _ :: _ => l ++ '\n' :: intercalateNL ls

/-- Python `'\n'.join(lines)`. -/
def pyJoinNL (lines : List String) : String := ⟨intercalateNL (lines.map (·.data))⟩

/-- Python `line.partition(':')` restricted to the (before, after) components. -/
def partitionColon : List Char → List Char × List Char
  | [] => ([], [])
  | c :: rest =>
    if c = ':' then ([], rest)
    else
      let p := partitionColon rest
      (c :: p.1, p.2)

/-- Worker for `re.sub(r'https?://orcid\.org/', '', s)`: the regex engine
scans left to right, at each position removing a greedy match of the
alternative (`https://orcid.org/` is tried before `http://orcid.org/`).
`fuel` bounds the remaining length, keeping the recursion structural. -/
def stripUrlGo : Nat → List Char → List Char
  | _, [] => []
  | 0, cs => cs
  | fuel + 1, c :: rest =>
    if startsGo "https://orcid.org/".data (c :: rest) then
      stripUrlGo fuel ((c :: rest).drop 18)
    else if startsGo "http://orcid.org/".data (c :: rest) then
      stripUrlGo fuel ((c :: rest).drop 17)
    else c :: stripUrlGo fuel rest

/-- `re.sub(r'https?://orcid\.org/', '', s)` (line 116 of the script). -/
def stripOrcidUrls (s : String) : String := ⟨stripUrlGo s.data.length s.data⟩

/-- Python `s.replace('\\', '\\\\')`. -/
def replBackslash : List Char → List Char
  | [] => []
  | c :: cs => (if c = '\\' then ['\\', '\\'] else [c]) ++ replBackslash cs

/-- Python `s.replace('"', '\\"')`. -/
def replQuote : List Char → List Char
  | [] => []
  | c :: cs => (if c = '"' then ['\\', '"'] else [c]) ++ replQuote cs

/-- CPython `repr` of a `str`, as used by `str(list_of_strings)` when the
writer interpolates a list-valued `institution` into an f-string. The quote
character is `'` unless the string contains `'` and no `"`. Backslashes, the
quote character, and the control characters LF/CR/TAB are escaped; other
non-printable characters (which never reach the writer: the parser's values
come from single lines of text) are kept as-is. In particular the output
never contains a literal newline. -/
def pyReprStr (s : String) : String :=
  let q : Char := if s.data.contains '\'' && !(s.data.contains '"') then '"' else '\''
  let esc : List Char := s.data.foldr
    (fun c acc =>
      if c = '\\' then '\\' :: '\\' :: acc
      else if c = q then '\\' :: q :: acc
      else if c = '\n' then '\\' :: 'n' :: acc
      else if c = '\r' then '\\' :: 'r' :: acc
      else if c = '\t' then '\\' :: 't' :: acc
      else c :: acc) []
  ⟨q :: (esc ++ [q])⟩

/-- `', '.join(xs)`. -/
def joinComma : List String → String
  | [] => ""
  | s :: ss =>
    match ss with
    | [] => s
    | _ :: _ => s ++ ", " ++ joinComma ss

/-- CPython `str` of a list of strings: `[repr(x), ..., repr(y)]`. -/
def pyStrList (l : List String) : String :=
  "[" ++ joinComma (l.map pyReprStr) ++ "]"

/-! ## Data model

A parsed frontmatter block maps string keys to either a scalar string or a
list of strings (the only two shapes the simple YAML parser produces), in
insertion order, mirroring a Python `dict`. -/

/-- A frontmatter value: scalar string or list of strings. -/
inductive Value where
  | scalar : String → Value
  | seq : List String → Value
deriving DecidableEq, Repr

/-- Python truthiness of a `Value` (`if data[key]:`). -/
def Value.truthy : Value → Bool
  | .scalar s => s ≠ ""
  | .seq l => l ≠ []

/-- A parsed frontmatter block: insertion-ordered key/value pairs with
distinct keys, as produced by the parser's `dict`. -/
abbrev Block := List (String × Value)

/-- `key in data` for a block. -/
def Block.hasKey (data : Block) (k : String) : Bool := data.any (·.1 = k)

/-- `data.get(key)`: value at the first (only) binding of `k`. -/
def Block.get? (data : Block) (k : String) : Option Value :=
  (data.find? (·.1 = k)).map (·.2)

/-- `data[key] = v` on a Python dict: replace in place if the key exists,
otherwise append. -/
def dictInsert (data : Block) (k : String) (v : Value) : Block :=
  if data.any (·.1 = k) then
    data.map (fun p => if p.1 = k then (k, v) else p)
  else data ++ [(k, v)]

/-- `current_list.append(item)`: the accumulating list is the one stored at
the most recently introduced empty-valued key, so appending to it appends to
that key's binding. -/
def appendToKey (data : Block) (k : String) (item : String) : Block :=
  data.map (fun p =>
    if p.1 = k then
      (p.1, match p.2 with
            | Value.seq l => Value.seq (l ++ [item])
            | v => v)
    else p)

/-! ## Frontmatter Reader (`parse_yaml_frontmatter`, lines 21-72) -/

/-- Quote removal (lines 57-60): strip a leading-and-trailing matching
double or single quote. Note Python's `value[1:-1]` on a one-character
quoted value yields the empty string. -/
def stripQuotes (value : String) : String :=
  if pyStartsWith value "\"" && pyEndsWith value "\"" then
    strDropLast (strDrop value 1)
  else if pyStartsWith value "'" && pyEndsWith value "'" then
    strDropLast (strDrop value 1)
  else value

/-- One iteration of the parser loop (lines 36-70). The state is the dict
built so far together with the key of the currently accumulating list
(`current_list` aliasing `data[current_key]`), or `none`. -/
def processLine (st : Block × Option String) (line : String) : Block × Option String :=
  let data := st.1
  let cur := st.2
  if pyStrip line = "" then (data, cur)
  else if pyStartsWith line "  - " then
    match cur with
    | some k => (appendToKey data k (pyStrip (strDrop line 4)), cur)
    | none => (data, cur)
  else if pyStartsWith line "- " then
    match cur with
    | some k => (appendToKey data k (pyStrip (strDrop line 2)), cur)
    | none => (data, cur)
  else if containsChar line ':' then
    let p := partitionColon line.data
    let key := pyStrip ⟨p.1⟩
    let value := stripQuotes (pyStrip ⟨p.2⟩)
    if value = "" then (dictInsert data key (Value.seq []), some key)
    else (dictInsert data key (Value.scalar value), none)
  else (data, cur)

/-- Parse the frontmatter body: fold the line loop over `yaml_str.split('\n')`. -/
def parseYamlBody (yaml_str : String) : Block :=
  ((pySplit yaml_str "\n").foldl processLine ([], none)).1

/-- `parse_yaml_frontmatter` (lines 21-72): `re.match(r'^---\n(.*?)\n---',
content, re.DOTALL)` succeeds iff `content` starts with the four characters
`---\n` and the four characters `\n---` occur somewhere after them; the
non-greedy group is everything before the first such occurrence and the
remainder is everything after it. On failure return `(none, content)`. -/
def parse_yaml_frontmatter (content : String) : Option Block × String :=
  if pyStartsWith content "---\n" then
    match findSub (strDrop content 4).data "\n---".data with
    | some j =>
      let yaml_str : String := ⟨(strDrop content 4).data.take j⟩
      let remainder : String := ⟨(strDrop content 4).data.drop (j + 4)⟩
      (some (parseYamlBody yaml_str), remainder)
    | none => (none, content)
  else (none, content)

/-! ## Schema Converter (`convert_to_multiauthor`, lines 89-155) -/

/-- `re.search(r', (?:Jr\.|Sr\.|III|IV|PhD|MD)', s)` (line 106): the pattern
has no anchors or word boundaries, so it holds iff one of six literal
substrings occurs in `s`. -/
def suffix_guard (s : String) : Bool :=
  strContains s ", Jr." || strContains s ", Sr." || strContains s ", III" ||
  strContains s ", IV" || strContains s ", PhD" || strContains s ", MD"

/-- Author-name splitting (lines 104-110). -/
def parse_author_names (author_str : String) : List String :=
  if strContains author_str " and " then
    (pySplit author_str " and ").map pyStrip
  else if strContains author_str ", " && !suffix_guard author_str then
    (pySplit author_str ", ").map pyStrip
  else [pyStrip author_str]

/-- ORCID splitting (lines 113-125). -/
def parse_orcids (orcid_str : String) : List String :=
  if orcid_str = "" then []
  else
    let t := stripOrcidUrls orcid_str
    if strContains t " and " then
      (pySplit t " and ").map pyStrip
    else if containsChar t ';' then
      ((pySplit t ";").filter (fun o => pyStrip o ≠ "")).map (fun o => rstripSemi (pyStrip o))
    else if containsChar t ',' then
      (pySplit t ",").map pyStrip
    else [pyStrip t]

/-- `re.match(r'^\d{4}-\d{4}-\d{4}-\d{4}[X]?$', orcid)` (line 140). The
string checked is always the output of `.strip()`, so it cannot end in the
trailing newline that Python's `$` would additionally tolerate; `\d` is
embedded as an ASCII digit (the identifiers in the data are ASCII). -/
def validOrcid (s : String) : Bool :=
  match s.data with
  | [a1, a2, a3, a4, '-', b1, b2, b3, b4, '-', c1, c2, c3, c4, '-', d1, d2, d3, d4] =>
    [a1, a2, a3, a4, b1, b2, b3, b4, c1, c2, c3, c4, d1, d2, d3, d4].all Char.isDigit
  | [a1, a2, a3, a4, '-', b1, b2, b3, b4, '-', c1, c2, c3, c4, '-', d1, d2, d3, d4, 'X'] =>
    [a1, a2, a3, a4, b1, b2, b3, b4, c1, c2, c3, c4, d1, d2, d3, d4].all Char.isDigit
  | _ => false

/-- One entry of the new `authors` array: the dict `{'name': ..}` with its
optional `institution` (any `Value`: a list-valued `institution` field is
attached verbatim, line 134) and optional `orcid`. -/
structure Author where
  name : String
  institution : Option Value
  orcid : Option String
deriving DecidableEq, Repr

/-- The author-assembly loop (lines 128-143), for index `i`. -/
def mkAuthor (i : Nat) (name : String) (orcids : List String) (institution : Value) : Author :=
  { name := name
    institution := if i = 0 ∧ institution.truthy then some institution else none
    orcid :=
      match orcids[i]? with
      | some o =>
        if o ≠ "" then
          let o' := pyStrip o
          if validOrcid o' then some o' else none
        else none
      | none => none }

/-- `authors = [ ... for i, name in enumerate(author_names) ]`. -/
def build_authors (names orcids : List String) (institution : Value) : List Author :=
  names.enum.map (fun p => mkAuthor p.1 p.2 orcids institution)

/-- A value of the migrated block: an ordinary frontmatter `Value`, or the
structured `authors` array (which only ever sits under the key `authors`). -/
inductive NewValue where
  | val : Value → NewValue
  | authorsList : List Author → NewValue
deriving DecidableEq, Repr

/-- The migrated block, in dict insertion order. -/
abbrev NewBlock := List (String × NewValue)

/-- The `authors` array of a migrated block. -/
def NewBlock.authors (nd : NewBlock) : List Author :=
  match (nd.find? (·.1 = "authors")).map (·.2) with
  | some (NewValue.authorsList l) => l
  | _ => []

/-- The allow-list of pass-through keys (line 151). -/
def passKeys : List String :=
  ["year", "funder", "program", "discipline", "status", "link", "link_name"]

/-- New-record assembly (lines 146-153): `layout` (default `"grant"`),
`title` (default `""`), `authors`, then each allow-listed key that is
present and truthy in the original block, in that order. -/
def newBlockAssemble (data : Block) (authors : List Author) : NewBlock :=
  let base : NewBlock :=
    [("layout", NewValue.val ((Block.get? data "layout").getD (Value.scalar "grant"))),
     ("title", NewValue.val ((Block.get? data "title").getD (Value.scalar ""))),
     ("authors", NewValue.authorsList authors)]
  passKeys.foldl
    (fun acc key =>
      match Block.get? data key with
      | some v => if v.truthy then acc ++ [(key, NewValue.val v)] else acc
      | none => acc) base

/-- The conversion body once the author string and the ORCID string are in
hand (lines 99-155). -/
def convertCore (data : Block) (author_str orcid_str : String) : NewBlock :=
  let institution := (Block.get? data "institution").getD (Value.scalar "")
  let names := parse_author_names author_str
  let orcids := parse_orcids orcid_str
  newBlockAssemble data (build_authors names orcids institution)

/-- Result of `convert_to_multiauthor`: either the input block returned
unchanged with `changed = False`, or a migrated block with `changed = True`. -/
inductive ConvertResult where
  | unchanged : Block → ConvertResult
  | converted : NewBlock → ConvertResult
deriving DecidableEq, Repr

/-- `convert_to_multiauthor` (lines 89-155). `none` models an uncaught
Python exception: a list-valued `author` makes line 110 call `.strip()` on a
list (AttributeError) — or line 105/108 call `.split` on it — and a
non-empty list-valued `ORCID` makes line 116 pass a list to `re.sub`
(TypeError). -/
def convert_to_multiauthor (data : Block) : Option ConvertResult :=
  if (Block.get? data "authors").isSome then some (ConvertResult.unchanged data)
  else
    match Block.get? data "author" with
    | none => some (ConvertResult.unchanged data)
    | some (Value.seq _) => none
    | some (Value.scalar author_str) =>
      match (Block.get? data "ORCID").getD (Value.scalar "") with
      | Value.seq [] => some (ConvertResult.converted (convertCore data author_str ""))
      | Value.seq (_ :: _) => none
      | Value.scalar orcid_str =>
        some (ConvertResult.converted (convertCore data author_str orcid_str))

/-! ## Frontmatter Writer (`write_yaml_frontmatter`, lines 158-179) -/

/-- `format_yaml_value` (lines 75-86) on a string value. -/
def format_yaml_value (s : String) : String :=
  if containsChar s ':' || containsChar s '#' || pyStartsWith s "\"" || containsChar s '\n' then
    "\"" ++ ⟨replQuote (replBackslash s.data)⟩ ++ "\""
  else s

/-- The lines emitted for one author dict (lines 166-170): name, then
`orcid` (if present, interpolated raw), then `institution` (if present,
through `format_yaml_value`, which returns a list unchanged so that the
f-string renders it with Python `str`). -/
def authorLines (a : Author) : List String :=
  ["  - name: " ++ format_yaml_value a.name]
  ++ (match a.orcid with
      | some o => ["    orcid: " ++ o]
      | none => [])
  ++ (match a.institution with
      | some (Value.scalar s) => ["    institution: " ++ format_yaml_value s]
      | some (Value.seq l) => ["    institution: " ++ pyStrList l]
      | none => [])

/-- The lines emitted for one key of the block (lines 162-176). An
`authorsList` value only ever occurs under the key `authors` (as produced by
the converter), matching the writer's `key == 'authors'` branch. -/
def entryLines : String × NewValue → List String
  | (_, NewValue.authorsList as) => "authors:" :: as.flatMap authorLines
  | (key, NewValue.val (Value.seq items)) =>
    (key ++ ":") :: items.map (fun it => "  - " ++ format_yaml_value it)
  | (key, NewValue.val (Value.scalar s)) => [key ++ ": " ++ format_yaml_value s]

/-- `write_yaml_frontmatter` (lines 158-179). -/
def write_yaml_frontmatter (data : NewBlock) (remainder : String) : String :=
  pyJoinNL (["---"] ++ data.flatMap entryLines ++ ["---"]) ++ remainder

/-! ## Spec-side definitions (for the refinement claims C3 and C4)

These two definitions follow the specification's words, to be compared with
the code-derived `parse_author_names` and `parse_orcids`. -/

/-- The name suffixes of the spec's comma-suffix guard. -/
def specSuffixes : List String := ["Jr.", "Sr.", "III", "IV", "PhD", "MD"]

/-- Name splitting as the spec words it: split on `" and "` if present;
else split on `", "` unless a comma-space followed by one of the guarded
suffixes occurs; else a single name; every piece trimmed. -/
def spec_split_names (s : String) : List String :=
  if strContains s " and " then (pySplit s " and ").map pyStrip
  else if strContains s ", " &&
      !(specSuffixes.any (fun suf => strContains s (", " ++ suf))) then
    (pySplit s ", ").map pyStrip
  else [pyStrip s]

/-- The first separator, in priority order, occurring in `t`. -/
def spec_first_sep (t : String) : Option String :=
  [" and ", ";", ","].find? (fun sep => strContains t sep)

/-- ORCID splitting as the spec words it: strip the URL prefixes, then use
exactly the first separator present in priority order `" and "`, `;`, `,`;
the `;` split drops blank pieces and right-strips `;`; otherwise the whole
value is a single identifier; every piece trimmed. -/
def spec_split_orcids (s : String) : List String :=
  let t := stripOrcidUrls s
  match spec_first_sep t with
  | none => [pyStrip t]
  | some sep =>
    if sep = " and " then (pySplit t " and ").map pyStrip
    else if sep = ";" then
      ((pySplit t ";").filter (fun o => pyStrip o ≠ "")).map
        (fun o => rstripSemi (pyStrip o))
    else if sep = "," then (pySplit t ",").map pyStrip
    else [pyStrip t]

/-! ## Proof-infrastructure predicates -/

/-- The string contains no newline character. Every value the Reader
produces satisfies this: values are built from single lines. -/
def noNL (s : String) : Prop := '\n' ∉ s.data

/-- All strings of a frontmatter value are newline-free. -/
def ValueNoNL : Value → Prop
  | .scalar s => noNL s
  | .seq l => ∀ x ∈ l, noNL x

/-- All values of a block are newline-free. -/
def BlockNoNL (data : Block) : Prop := ∀ p ∈ data, ValueNoNL p.2

/-- All strings of an author entry are newline-free. -/
def AuthorNoNL (a : Author) : Prop :=
  noNL a.name ∧ (∀ o, a.orcid = some o → noNL o) ∧
    (∀ v, a.institution = some v → ValueNoNL v)

/-- All strings of a migrated value are newline-free. -/
def NewValueNoNL : NewValue → Prop
  | .val v => ValueNoNL v
  | .authorsList l => ∀ a ∈ l, AuthorNoNL a

/-- All values of a migrated block are newline-free. -/
def NdNoNL (nd : NewBlock) : Prop := ∀ p ∈ nd, NewValueNoNL p.2

/-- A body line the writer can emit: non-empty, newline-free, and not
starting with a dash — so a `\n---` occurrence can never start inside the
serialized frontmatter body. -/
def GoodLine (l : List Char) : Prop :=
  l ≠ [] ∧ '\n' ∉ l ∧ l.head? ≠ some '-'

/-- The ten keys a migrated block can contain. -/
def tenKeys : List String := "layout" :: "title" :: "authors" :: passKeys

/-- Key `k` is present with a truthy value (`if key in data and data[key]`). -/
def presentTruthy (data : Block) (k : String) : Bool :=
  match Block.get? data k with
  | some v => v.truthy
  | none => false

/-! ## Lemmas: string primitives -/

theorem strData_append (s t : String) : (s ++ t).data = s.data ++ t.data := rfl

theorem strExt {s t : String} (h : s.data = t.data) : s = t := by
  cases s; cases t; simp_all

theorem startsGo_iff (p : List Char) :
    ∀ l, startsGo p l = true ↔ ∃ r, l = p ++ r := by
  induction p with
  | nil => intro l; simp [startsGo]
  | cons a ps ih =>
    intro l
    cases l with
    | nil => simp [startsGo]
    | cons c cs =>
      simp only [startsGo, Bool.and_eq_true, beq_iff_eq, ih, List.cons_append,
        List.cons.injEq]
      constructor
      · rintro ⟨h1, r, h2⟩; exact ⟨r, h1.symm, h2⟩
      · rintro ⟨r, h1, h2⟩; exact ⟨h1.symm, r, h2⟩

theorem startsGo_self_append (p r : List Char) : startsGo p (p ++ r) = true :=
  (startsGo_iff p _).2 ⟨r, rfl⟩

theorem startsGo_head {x : Char} {xs l : List Char}
    (h : startsGo (x :: xs) l = true) : l.head? = some x := by
  obtain ⟨r, hr⟩ := (startsGo_iff _ _).1 h
  subst hr; rfl

theorem findSub_eq_some {cs pat : List Char} {j : Nat}
    (h : findSub cs pat = some j) :
    startsGo pat (cs.drop j) = true ∧
      ∀ i, i < j → startsGo pat (cs.drop i) = false := by
  induction cs generalizing j with
  | nil =>
    unfold findSub at h
    by_cases hs : startsGo pat [] = true
    · simp [hs] at h
      subst h
      exact ⟨hs, by omega⟩
    · simp [hs] at h
  | cons c rest ih =>
    unfold findSub at h
    by_cases hs : startsGo pat (c :: rest) = true
    · rw [if_pos hs] at h
      injection h with h
      subst h
      exact ⟨hs, by omega⟩
    · rw [if_neg hs] at h
      cases hrec : findSub rest pat with
      | none => rw [hrec] at h; simp at h
      | some j' =>
        rw [hrec] at h
        simp only [Option.map_some'] at h
        injection h with h
        subst h
        obtain ⟨h1, h2⟩ := ih hrec
        refine ⟨h1, ?_⟩
        intro i hi
        cases i with
        | zero => simpa using Bool.of_not_eq_true hs
        | succ i' => exact h2 i' (by omega)

theorem findSub_eq_none {cs pat : List Char}
    (h : findSub cs pat = none) : ∀ i, startsGo pat (cs.drop i) = false := by
  induction cs with
  | nil =>
    unfold findSub at h
    by_cases hs : startsGo pat [] = true
    · simp [hs] at h
    · intro i; simpa using Bool.of_not_eq_true hs
  | cons c rest ih =>
    unfold findSub at h
    by_cases hs : startsGo pat (c :: rest) = true
    · simp [hs] at h
    · rw [if_neg hs] at h
      have hrec : findSub rest pat = none := by
        cases hrec : findSub rest pat with
        | none => rfl
        | some j' => rw [hrec] at h; simp at h
      intro i
      cases i with
      | zero => simpa using Bool.of_not_eq_true hs
      | succ i' => exact ih hrec i'

theorem findSub_spec_unique {cs pat : List Char} {J : Nat}
    (hJ : startsGo pat (cs.drop J) = true)
    (hmin : ∀ i, i < J → startsGo pat (cs.drop i) = false) :
    findSub cs pat = some J := by
  cases h : findSub cs pat with
  | none => exact absurd hJ (by simp [findSub_eq_none h J])
  | some j =>
    obtain ⟨h1, h2⟩ := findSub_eq_some h
    rcases Nat.lt_trichotomy j J with hlt | heq | hgt
    · exact absurd h1 (by simp [hmin j hlt])
    · rw [heq]
    · exact absurd hJ (by simp [h2 J hgt])

theorem mem_dropWhile_sub {p : Char → Bool} {a : Char} :
    ∀ {l : List Char}, a ∈ l.dropWhile p → a ∈ l := by
  intro l
  induction l with
  | nil => simp [List.dropWhile]
  | cons c cs ih =>
    intro h
    rw [List.dropWhile_cons] at h
    by_cases hp : p c = true
    · simp only [hp, if_true] at h
      exact List.mem_cons_of_mem c (ih h)
    · simp only [hp, if_false] at h
      exact h

theorem mem_trimChars {a : Char} {cs : List Char} (h : a ∈ trimChars cs) :
    a ∈ cs := by
  unfold trimChars at h
  rw [List.mem_reverse] at h
  have h2 := mem_dropWhile_sub h
  rw [List.mem_reverse] at h2
  exact mem_dropWhile_sub h2

theorem mem_pyStrip {a : Char} {s : String} (h : a ∈ (pyStrip s).data) :
    a ∈ s.data := mem_trimChars h

theorem mem_rstripSemi {a : Char} {s : String} (h : a ∈ (rstripSemi s).data) :
    a ∈ s.data := by
  unfold rstripSemi at h
  simp only at h
  rw [List.mem_reverse] at h
  have h2 := mem_dropWhile_sub h
  rw [List.mem_reverse] at h2
  exact h2

theorem mem_stripUrlGo {a : Char} :
    ∀ fuel cs, a ∈ stripUrlGo fuel cs → a ∈ cs := by
  intro fuel
  induction fuel with
  | zero =>
    intro cs h
    cases cs with
    | nil => simp [stripUrlGo] at h
    | cons c rest => simpa [stripUrlGo] using h
  | succ f ih =>
    intro cs h
    cases cs with
    | nil => simp [stripUrlGo] at h
    | cons c rest =>
      unfold stripUrlGo at h
      by_cases h1 : startsGo "https://orcid.org/".data (c :: rest) = true
      · rw [if_pos h1] at h
        exact List.mem_of_mem_drop (ih _ h)
      · rw [if_neg (by simp [h1])] at h
        by_cases h2 : startsGo "http://orcid.org/".data (c :: rest) = true
        · rw [if_pos h2] at h
          exact List.mem_of_mem_drop (ih _ h)
        · rw [if_neg (by simp [h2])] at h
          rcases List.mem_cons.1 h with rfl | h'
          · exact List.mem_cons_self _ _
          · exact List.mem_cons_of_mem _ (ih _ h')

theorem mem_stripOrcidUrls {a : Char} {s : String}
    (h : a ∈ (stripOrcidUrls s).data) : a ∈ s.data :=
  mem_stripUrlGo _ _ h

/-! ## Lemmas: `splitGo` / `splitSub` -/

theorem splitGo_nil (pat : List Char) (fuel : Nat) : splitGo pat fuel [] = [[]] := by
  cases fuel <;> rfl

theorem splitGo_fuel {pat : List Char} (hp : pat ≠ []) :
    ∀ f₁ f₂ cs, cs.length ≤ f₁ → cs.length ≤ f₂ →
      splitGo pat f₁ cs = splitGo pat f₂ cs := by
  intro f₁
  induction f₁ with
  | zero =>
    intro f₂ cs h₁ _
    have : cs = [] := List.eq_nil_of_length_eq_zero (by omega)
    subst this
    rw [splitGo_nil, splitGo_nil]
  | succ f ih =>
    intro f₂ cs h₁ h₂
    cases cs with
    | nil => rw [splitGo_nil, splitGo_nil]
    | cons c rest =>
      cases f₂ with
      | zero => simp at h₂
      | succ f₂' =>
        simp only [List.length_cons] at h₁ h₂
        by_cases hs : startsGo pat (c :: rest) = true
        · have hlen : ((c :: rest).drop pat.length).length ≤ f := by
            simp only [List.length_drop, List.length_cons]
            have : 0 < pat.length := List.length_pos.mpr hp
            omega
          have hlen₂ : ((c :: rest).drop pat.length).length ≤ f₂' := by
            simp only [List.length_drop, List.length_cons]
            have : 0 < pat.length := List.length_pos.mpr hp
            omega
          unfold splitGo
          rw [if_pos hs, if_pos hs, ih f₂' _ hlen hlen₂]
        · unfold splitGo
          rw [if_neg hs, if_neg hs, ih f₂' rest (by omega) (by omega)]

theorem splitSub_cons_pos {pat : List Char} (hp : pat ≠ []) {c : Char}
    {rest : List Char} (h : startsGo pat (c :: rest) = true) :
    splitSub pat (c :: rest) = [] :: splitSub pat ((c :: rest).drop pat.length) := by
  show splitGo pat (c :: rest).length (c :: rest) = _
  simp only [List.length_cons, splitGo, h, if_true]
  congr 1
  apply splitGo_fuel hp
  · simp only [List.length_drop, List.length_cons]
    have : 0 < pat.length := List.length_pos.mpr hp
    omega
  · exact Nat.le_refl _

theorem splitSub_cons_neg {pat : List Char} {c : Char} {rest : List Char}
    (h : ¬ startsGo pat (c :: rest) = true) :
    splitSub pat (c :: rest) =
      match splitSub pat rest with
      | [] => [[c]]
      | p :: ps => (c :: p) :: ps := by
  show splitGo pat (c :: rest).length (c :: rest) = _
  simp only [List.length_cons, splitGo, h, if_false]
  rfl

theorem splitGo_ne_nil (pat : List Char) :
    ∀ fuel cs, splitGo pat fuel cs ≠ [] := by
  intro fuel
  induction fuel with
  | zero => intro cs; cases cs <;> simp [splitGo]
  | succ f ih =>
    intro cs
    cases cs with
    | nil => simp [splitGo_nil]
    | cons c rest =>
      by_cases hs : startsGo pat (c :: rest) = true
      · simp [splitGo, hs]
      · simp only [splitGo, hs, if_false]
        cases hrec : splitGo pat f rest with
        | nil => simp
        | cons p ps => simp

theorem splitSub_ne_nil (pat cs : List Char) : splitSub pat cs ≠ [] :=
  splitGo_ne_nil pat _ cs

theorem mem_splitGo_subset {pat : List Char} {a : Char} :
    ∀ fuel cs piece, piece ∈ splitGo pat fuel cs → a ∈ piece → a ∈ cs := by
  intro fuel
  induction fuel with
  | zero =>
    intro cs piece hm ha
    cases cs with
    | nil => simp [splitGo] at hm; subst hm; simp at ha
    | cons c rest => simp [splitGo] at hm; subst hm; exact ha
  | succ f ih =>
    intro cs piece hm ha
    cases cs with
    | nil => rw [splitGo_nil] at hm; simp at hm; subst hm; simp at ha
    | cons c rest =>
      by_cases hs : startsGo pat (c :: rest) = true
      · unfold splitGo at hm
        rw [if_pos hs] at hm
        rcases List.mem_cons.1 hm with rfl | hm
        · simp at ha
        · exact List.mem_of_mem_drop (ih _ _ hm ha)
      · unfold splitGo at hm
        rw [if_neg hs] at hm
        cases hrec : splitGo pat f rest with
        | nil => exact absurd hrec (splitGo_ne_nil pat f rest)
        | cons p ps =>
          rw [hrec] at hm
          rcases List.mem_cons.1 hm with rfl | hm
          · rcases List.mem_cons.1 ha with rfl | ha'
            · exact List.mem_cons_self _ _
            · exact List.mem_cons_of_mem _
                (ih rest p (by rw [hrec]; exact List.mem_cons_self _ _) ha')
          · exact List.mem_cons_of_mem _
              (ih rest piece (by rw [hrec]; exact List.mem_cons_of_mem _ hm) ha)

theorem mem_splitSub_subset {pat cs : List Char} {piece : List Char} {a : Char}
    (hm : piece ∈ splitSub pat cs) (ha : a ∈ piece) : a ∈ cs :=
  mem_splitGo_subset _ cs piece hm ha

theorem mem_splitGo_single {b : Char} :
    ∀ fuel cs piece, cs.length ≤ fuel → piece ∈ splitGo [b] fuel cs →
      b ∉ piece := by
  intro fuel
  induction fuel with
  | zero =>
    intro cs piece hl hm
    have : cs = [] := List.eq_nil_of_length_eq_zero (by omega)
    subst this
    rw [splitGo_nil] at hm
    simp at hm
    subst hm
    simp
  | succ f ih =>
    intro cs piece hl hm
    cases cs with
    | nil =>
      rw [splitGo_nil] at hm
      simp at hm; subst hm; simp
    | cons c rest =>
      simp only [List.length_cons] at hl
      by_cases hs : startsGo [b] (c :: rest) = true
      · unfold splitGo at hm
        rw [if_pos hs] at hm
        rcases List.mem_cons.1 hm with rfl | hm
        · simp
        · exact ih _ _
            (by simp only [List.length_drop, List.length_cons, List.length_singleton]; omega)
            hm
      · have hcb : ¬ c = b := by
          intro hcb
          subst hcb
          simp [startsGo] at hs
        unfold splitGo at hm
        rw [if_neg hs] at hm
        cases hrec : splitGo [b] f rest with
        | nil => exact absurd hrec (splitGo_ne_nil _ f rest)
        | cons p ps =>
          rw [hrec] at hm
          rcases List.mem_cons.1 hm with rfl | hm
          · intro hb
            rcases List.mem_cons.1 hb with rfl | hb'
            · exact hcb rfl
            · exact ih rest p (by omega) (by rw [hrec]; exact List.mem_cons_self _ _) hb'
          · exact ih rest piece (by omega) (by rw [hrec]; exact List.mem_cons_of_mem _ hm)

theorem mem_splitSub_single {b : Char} {cs piece : List Char}
    (hm : piece ∈ splitSub [b] cs) : b ∉ piece :=
  mem_splitGo_single _ cs piece (Nat.le_refl _) hm

theorem splitSub_single_no_sep {b : Char} :
    ∀ l : List Char, b ∉ l → splitSub [b] l = [l] := by
  intro l
  induction l with
  | nil => intro _; rfl
  | cons c rest ih =>
    intro hb
    have hcb : ¬ c = b := fun h => hb (h ▸ List.mem_cons_self _ _)
    have hs : ¬ startsGo [b] (c :: rest) = true := by
      simp [startsGo]
      intro h
      exact absurd h.symm hcb
    rw [splitSub_cons_neg hs, ih (fun h => hb (List.mem_cons_of_mem _ h))]

theorem splitSub_single_append {b : Char} :
    ∀ (l t : List Char), b ∉ l →
      splitSub [b] (l ++ b :: t) = l :: splitSub [b] t := by
  intro l
  induction l with
  | nil =>
    intro t _
    have hs : startsGo [b] (b :: t) = true := by simp [startsGo]
    simpa using splitSub_cons_pos (by simp) hs
  | cons c rest ih =>
    intro t hb
    have hcb : ¬ c = b := fun h => hb (h ▸ List.mem_cons_self _ _)
    have hs : ¬ startsGo [b] (c :: (rest ++ b :: t)) = true := by
      simp [startsGo]
      intro h
      exact absurd h.symm hcb
    rw [List.cons_append, splitSub_cons_neg hs,
      ih t (fun h => hb (List.mem_cons_of_mem _ h))]

theorem splitSub_NL_join :
    ∀ lines : List (List Char), lines ≠ [] → (∀ l ∈ lines, '\n' ∉ l) →
      splitSub ['\n'] (intercalateNL lines) = lines := by
  intro lines
  induction lines with
  | nil => intro h; exact absurd rfl h
  | cons l ls ih =>
    intro _ hnl
    cases ls with
    | nil =>
      show splitSub ['\n'] l = [l]
      exact splitSub_single_no_sep l (hnl l (List.mem_cons_self _ _))
    | cons l₂ ls' =>
      show splitSub ['\n'] (l ++ '\n' :: intercalateNL (l₂ :: ls')) = _
      rw [splitSub_single_append l _ (hnl l (List.mem_cons_self _ _)),
        ih (by simp) (fun x hx => hnl x (List.mem_cons_of_mem _ hx))]

/-! ## Lemmas: converter helpers -/

theorem strContains_single_eq (s : String) (b : Char) :
    strContains s ⟨[b]⟩ = containsChar s b := by
  show (findSub s.data [b]).isSome = s.data.contains b
  induction s.data with
  | nil => rfl
  | cons c rest ih =>
    by_cases hcb : b = c
    · subst hcb
      have hs : startsGo [b] (b :: rest) = true := by simp [startsGo]
      simp [findSub, hs, List.contains_cons]
    · have hs : ¬ startsGo [b] (c :: rest) = true := by
        simp [startsGo]
        intro h
        exact absurd h hcb
      simp only [findSub, hs, if_false, List.contains_cons]
      rw [show (b == c) = false from by simp [hcb]]
      simp only [Bool.false_or]
      rw [← ih]
      cases findSub rest [b] <;> rfl

theorem suffix_guard_eq_spec (s : String) :
    (specSuffixes.any (fun suf => strContains s (", " ++ suf))) = suffix_guard s := by
  simp only [specSuffixes, List.any_cons, List.any_nil, Bool.or_false]
  rw [show ((", " ++ "Jr." : String)) = ", Jr." from rfl,
    show ((", " ++ "Sr." : String)) = ", Sr." from rfl,
    show ((", " ++ "III" : String)) = ", III" from rfl,
    show ((", " ++ "IV" : String)) = ", IV" from rfl,
    show ((", " ++ "PhD" : String)) = ", PhD" from rfl,
    show ((", " ++ "MD" : String)) = ", MD" from rfl]
  simp [suffix_guard, Bool.or_assoc]

theorem parse_author_names_eq_spec (s : String) :
    parse_author_names s = spec_split_names s := by
  unfold parse_author_names spec_split_names
  rw [suffix_guard_eq_spec]

theorem parse_orcids_eq_spec (s : String) (hs : s ≠ "") :
    parse_orcids s = spec_split_orcids s := by
  have eSemi : strContains (stripOrcidUrls s) ";" = containsChar (stripOrcidUrls s) ';' :=
    strContains_single_eq _ _
  have eComma : strContains (stripOrcidUrls s) "," = containsChar (stripOrcidUrls s) ',' :=
    strContains_single_eq _ _
  unfold parse_orcids
  rw [if_neg hs]
  by_cases h1 : strContains (stripOrcidUrls s) " and " = true
  · have hfind : spec_first_sep (stripOrcidUrls s) = some " and " := by
      unfold spec_first_sep
      rw [List.find?_cons_of_pos _ h1]
    simp only [spec_split_orcids]
    rw [hfind]
    simp [h1]
  · by_cases h2 : containsChar (stripOrcidUrls s) ';' = true
    · have hfind : spec_first_sep (stripOrcidUrls s) = some ";" := by
        unfold spec_first_sep
        rw [List.find?_cons_of_neg _ (by simp [h1]),
          List.find?_cons_of_pos _ (by rw [eSemi]; exact h2)]
      simp only [spec_split_orcids]
      rw [hfind]
      simp [h1, h2, show (";" : String) ≠ " and " from by decide]
    · by_cases h3 : containsChar (stripOrcidUrls s) ',' = true
      · have hfind : spec_first_sep (stripOrcidUrls s) = some "," := by
          unfold spec_first_sep
          rw [List.find?_cons_of_neg _ (by simp [h1]),
            List.find?_cons_of_neg _ (by rw [eSemi]; simp [h2]),
            List.find?_cons_of_pos _ (by rw [eComma]; exact h3)]
        simp only [spec_split_orcids]
        rw [hfind]
        simp [h1, h2, h3, show ("," : String) ≠ " and " from by decide,
          show ("," : String) ≠ ";" from by decide]
      · have hfind : spec_first_sep (stripOrcidUrls s) = none := by
          unfold spec_first_sep
          rw [List.find?_cons_of_neg _ (by simp [h1]),
            List.find?_cons_of_neg _ (by rw [eSemi]; simp [h2]),
            List.find?_cons_of_neg _ (by rw [eComma]; simp [h3])]
          rfl
        simp only [spec_split_orcids]
        rw [hfind]
        simp [h1, h2, h3]

/-- The author at index `i`: the conversion loop in closed form. -/
theorem build_authors_getElem (names orcids : List String) (institution : Value)
    (i : Nat) :
    (build_authors names orcids institution)[i]? =
      (names[i]?).map (fun n => mkAuthor i n orcids institution) := by
  unfold build_authors
  rw [List.getElem?_map, List.getElem?_enum]
  cases names[i]? <;> rfl

/-- `newBlockAssemble` in closed form: the fixed three leading entries
followed by the present-and-truthy allow-listed keys in order. -/
theorem newBlockAssemble_eq (data : Block) (authors : List Author) :
    newBlockAssemble data authors =
      [("layout", NewValue.val ((Block.get? data "layout").getD (Value.scalar "grant"))),
       ("title", NewValue.val ((Block.get? data "title").getD (Value.scalar ""))),
       ("authors", NewValue.authorsList authors)]
      ++ (passKeys.filter (presentTruthy data)).map
          (fun k => (k, NewValue.val ((Block.get? data k).getD (Value.scalar "")))) := by
  unfold newBlockAssemble
  generalize hbase : [("layout", NewValue.val ((Block.get? data "layout").getD (Value.scalar "grant"))),
       ("title", NewValue.val ((Block.get? data "title").getD (Value.scalar ""))),
       ("authors", NewValue.authorsList authors)] = base
  clear hbase
  induction passKeys generalizing base with
  | nil => simp
  | cons k ks ih =>
    simp only [List.foldl_cons, List.filter_cons]
    cases hk : Block.get? data k with
    | none =>
      rw [show presentTruthy data k = false from by simp [presentTruthy, hk]]
      simpa [hk] using ih base
    | some v =>
      by_cases hv : v.truthy = true
      · rw [show presentTruthy data k = true from by simp [presentTruthy, hk, hv]]
        simp only [hk, hv, if_true, List.map_cons]
        rw [ih (base ++ [(k, NewValue.val v)])]
        simp [hk, List.append_assoc]
      · rw [show presentTruthy data k = false from by simp [presentTruthy, hk]; simpa using hv]
        simpa [hk, hv] using ih base

/-- The keys of a migrated block all come from the fixed ten. -/
theorem newBlockAssemble_keys (data : Block) (authors : List Author) :
    ∀ k, k ∈ (newBlockAssemble data authors).map Prod.fst → k ∈ tenKeys := by
  intro k hk
  rw [newBlockAssemble_eq, List.map_append, List.mem_append] at hk
  rcases hk with h | h
  · simp only [List.map_cons, List.map_nil, List.mem_cons, List.not_mem_nil,
      or_false] at h
    rcases h with rfl | rfl | rfl <;> simp [tenKeys]
  · rw [List.map_map] at h
    obtain ⟨x, hx1, hx2⟩ := List.mem_map.1 h
    have hxp : x ∈ passKeys := List.mem_of_mem_filter hx1
    have hfst : (Prod.fst ∘ fun k =>
        (k, NewValue.val ((Block.get? data k).getD (Value.scalar "")))) x = x := rfl
    rw [hfst] at hx2
    subst hx2
    simp only [tenKeys, List.mem_cons]
    right; right; right
    exact hxp

/-- The `authors` array of an assembled block is exactly the built list. -/
theorem authors_of_assemble (data : Block) (as : List Author) :
    NewBlock.authors (newBlockAssemble data as) = as := by
  rw [newBlockAssemble_eq]
  unfold NewBlock.authors
  rw [List.cons_append, List.cons_append, List.cons_append,
    List.find?_cons_of_neg _ (by simp), List.find?_cons_of_neg _ (by simp),
    List.find?_cons_of_pos _ (by simp)]
  rfl

/-- The names of the built authors are exactly the split names, in order. -/
theorem build_authors_map_name (names orcids : List String) (inst : Value) :
    (build_authors names orcids inst).map Author.name = names := by
  unfold build_authors
  rw [List.map_map]
  rw [show (Author.name ∘ fun p => mkAuthor p.1 p.2 orcids inst) = Prod.snd from
    by funext p; rfl]
  exact List.enum_map_snd names

/-! ## Claim theorems (C2 - C10; C1 follows after the round-trip lemmas) -/

/-- C3 (confirmed): the Converter splits `author` values exactly as the spec
describes: on `" and "` if present, else on `", "` unless a comma-space
followed by one of the suffixes Jr./Sr./III/IV/PhD/MD occurs, else the whole
value is one (trimmed) name; in particular `"Smith, Jr."` stays one author,
and the names of the converted record are exactly the split pieces. -/
theorem claim_C3 :
    (∀ s : String, parse_author_names s = spec_split_names s) ∧
    (∀ (data : Block) (author_str orcid_str : String),
      (NewBlock.authors (convertCore data author_str orcid_str)).map Author.name =
        parse_author_names author_str) ∧
    parse_author_names "Smith, Jr." = ["Smith, Jr."] := by
  refine ⟨parse_author_names_eq_spec, ?_, by decide⟩
  intro data author_str orcid_str
  unfold convertCore
  rw [authors_of_assemble, build_authors_map_name]

/-- C4 (confirmed): for every non-empty `ORCID` scalar, the Converter first
strips every `http(s)://orcid.org/` occurrence, then splits with exactly the
first separator present in priority order `" and "`, `;` (dropping blank
pieces, right-stripping `;`), `,`, else a single identifier; later
separators are ignored when an earlier one is present, as the concrete mixed
input shows. -/
theorem claim_C4 :
    (∀ s : String, s ≠ "" → parse_orcids s = spec_split_orcids s) ∧
    parse_orcids "0000-0001-2345-6789 and 0000;0002" =
      ["0000-0001-2345-6789", "0000;0002"] :=
  ⟨parse_orcids_eq_spec, by decide⟩

/-- Closed witness for the hypothesis of `claim_C4`. -/
theorem claim_C4_witness :
    parse_orcids "http://orcid.org/0000-0001-2345-6789;" =
      spec_split_orcids "http://orcid.org/0000-0001-2345-6789;" :=
  claim_C4.1 _ (by decide)

/-- C5 (confirmed): the `i`-th (0-based) Author Entity has the `i`-th split
name; it carries `institution` iff `i = 0` and the original `institution`
was present and truthy; it carries `orcid` (the stripped `i`-th split
identifier) iff that identifier exists, is non-empty and matches
`^\d{4}-\d{4}-\d{4}-\d{4}X?$`; a non-matching identifier is silently
dropped while names proceed, as the concrete record shows. -/
theorem claim_C5 :
    (∀ (names orcids : List String) (inst : Value) (i : Nat),
      (build_authors names orcids inst)[i]? =
        (names[i]?).map (fun n => mkAuthor i n orcids inst)) ∧
    (∀ (i : Nat) (n : String) (orcids : List String) (inst : Value) (v : Value),
      (mkAuthor i n orcids inst).name = n ∧
      ((mkAuthor i n orcids inst).institution = some v ↔
        i = 0 ∧ inst.truthy = true ∧ v = inst)) ∧
    (∀ (i : Nat) (n : String) (orcids : List String) (inst : Value) (o : String),
      (mkAuthor i n orcids inst).orcid = some o ↔
        ∃ raw, orcids[i]? = some raw ∧ raw ≠ "" ∧ o = pyStrip raw ∧
          validOrcid (pyStrip raw) = true) ∧
    convert_to_multiauthor
        [("author", Value.scalar "A and B"), ("institution", Value.scalar "Acme U"),
         ("ORCID", Value.scalar "not-an-id")] =
      some (ConvertResult.converted
        [("layout", NewValue.val (Value.scalar "grant")),
         ("title", NewValue.val (Value.scalar "")),
         ("authors", NewValue.authorsList
           [{ name := "A", institution := some (Value.scalar "Acme U"), orcid := none },
            { name := "B", institution := none, orcid := none }])]) := by
  refine ⟨build_authors_getElem, ?_, ?_, by decide⟩
  · intro i n orcids inst v
    refine ⟨rfl, ?_⟩
    show (if i = 0 ∧ inst.truthy = true then some inst else none) = some v ↔ _
    by_cases h : i = 0 ∧ inst.truthy = true
    · rw [if_pos h]
      constructor
      · intro hv
        injection hv with hv
        exact ⟨h.1, h.2, hv.symm⟩
      · rintro ⟨_, _, rfl⟩; rfl
    · rw [if_neg h]
      constructor
      · intro hv; exact Option.noConfusion hv
      · rintro ⟨h1, h2, _⟩; exact absurd ⟨h1, h2⟩ h
  · intro i n orcids inst o
    show (match orcids[i]? with
          | some o' =>
            if o' ≠ "" then
              if validOrcid (pyStrip o') = true then some (pyStrip o') else none
            else none
          | none => none) = some o ↔ _
    cases hr : orcids[i]? with
    | none =>
      constructor
      · intro ho; exact Option.noConfusion ho
      · rintro ⟨raw', hr', _⟩; exact Option.noConfusion hr'
    | some raw =>
      have hred : (match some raw with
          | some o' =>
            if o' ≠ "" then
              if validOrcid (pyStrip o') = true then some (pyStrip o') else none
            else none
          | none => (none : Option String)) =
          (if raw ≠ "" then
            if validOrcid (pyStrip raw) = true then some (pyStrip raw) else none
          else none) := rfl
      rw [hred]
      by_cases hraw : raw = ""
      · rw [if_neg (by simp [hraw])]
        constructor
        · intro ho; exact Option.noConfusion ho
        · rintro ⟨raw', hr', hne, _⟩
          injection hr' with hr'
          exact absurd hraw (hr' ▸ hne)
      · rw [if_pos hraw]
        by_cases hv : validOrcid (pyStrip raw) = true
        · rw [if_pos hv]
          constructor
          · intro ho
            injection ho with ho
            exact ⟨raw, rfl, hraw, ho.symm, hv⟩
          · rintro ⟨raw', hr', _, rfl, _⟩
            injection hr' with hr'
            subst hr'
            rfl
        · rw [if_neg hv]
          constructor
          · intro ho; exact Option.noConfusion ho
          · rintro ⟨raw', hr', _, _, hv'⟩
            injection hr' with hr'
            subst hr'
            exact (hv hv').elim

/-- C6 (confirmed): a converted block is exactly `layout` (defaulted to
`"grant"`), `title` (defaulted to `""`), `authors`, then the allow-listed
keys that are present and truthy in the original block, in that order; all
keys come from the fixed ten, and `author`, `ORCID`, `institution` never
survive. -/
theorem claim_C6 : ∀ (data : Block) (authors : List Author),
    newBlockAssemble data authors =
      [("layout", NewValue.val ((Block.get? data "layout").getD (Value.scalar "grant"))),
       ("title", NewValue.val ((Block.get? data "title").getD (Value.scalar ""))),
       ("authors", NewValue.authorsList authors)]
      ++ (passKeys.filter (presentTruthy data)).map
          (fun k => (k, NewValue.val ((Block.get? data k).getD (Value.scalar "")))) ∧
    (∀ k, k ∈ (newBlockAssemble data authors).map Prod.fst → k ∈ tenKeys) ∧
    "author" ∉ (newBlockAssemble data authors).map Prod.fst ∧
    "ORCID" ∉ (newBlockAssemble data authors).map Prod.fst ∧
    "institution" ∉ (newBlockAssemble data authors).map Prod.fst := by
  intro data authors
  refine ⟨newBlockAssemble_eq data authors, newBlockAssemble_keys data authors, ?_, ?_, ?_⟩
  · intro h
    exact absurd (newBlockAssemble_keys data authors _ h) (by decide)
  · intro h
    exact absurd (newBlockAssemble_keys data authors _ h) (by decide)
  · intro h
    exact absurd (newBlockAssemble_keys data authors _ h) (by decide)

/-- Closed witness for `claim_C6`: instantiating at a record with a legacy
`author` key shows that key absent from the converted block. -/
theorem claim_C6_witness :
    "author" ∉ (newBlockAssemble [("author", Value.scalar "X")] []).map Prod.fst :=
  (claim_C6 [("author", Value.scalar "X")] []).2.2.1

/-- C10 (confirmed): a key line whose value, after trimming, is a single
quote character (`"` or `'` alone) has that character stripped to the empty
string — Python's `value[1:-1]` on a one-character string — so the Reader
treats the key as introducing a new empty sequence, not a scalar. -/
theorem claim_C10 :
    stripQuotes "\"" = "" ∧ stripQuotes "'" = "" ∧
    ∀ (data : Block) (cur : Option String) (line : String),
      pyStrip line ≠ "" →
      pyStartsWith line "  - " = false →
      pyStartsWith line "- " = false →
      containsChar line ':' = true →
      (pyStrip ⟨(partitionColon line.data).2⟩ = "\"" ∨
        pyStrip ⟨(partitionColon line.data).2⟩ = "'") →
      processLine (data, cur) line =
        (dictInsert data (pyStrip ⟨(partitionColon line.data).1⟩) (Value.seq []),
         some (pyStrip ⟨(partitionColon line.data).1⟩)) := by
  refine ⟨rfl, rfl, ?_⟩
  intro data cur line h1 h2 h3 h4 h5
  unfold processLine
  rw [if_neg h1, if_neg (by simp [h2]), if_neg (by simp [h3]), if_pos h4]
  dsimp only
  rcases h5 with h5 | h5 <;> rw [h5] <;> rfl

/-- Closed witness for `claim_C10` at the line `author: "`. -/
theorem claim_C10_witness :
    processLine ([], none) "author: \"" = ([("author", Value.seq [])], some "author") :=
  claim_C10.2.2 [] none "author: \"" (by decide) (by decide) (by decide) (by decide)
    (Or.inl (by decide))

/-- C2 is false as stated: the Reader can hand the Converter a list-valued
`author` (input `---\nauthor:\n  - Jane\n---\nbody`), and on such a record
the conversion raises (modelled as `none`: line 110 calls `.strip()` on a
list) instead of terminating normally. -/
theorem claim_C2_counterexample :
    parse_yaml_frontmatter "---\nauthor:\n  - Jane\n---\nbody" =
      (some [("author", Value.seq ["Jane"])], "\nbody") ∧
    convert_to_multiauthor [("author", Value.seq ["Jane"])] = none :=
  ⟨by decide, by decide⟩

/-- C2 (corrected): the Reader is total, and the Converter terminates
normally on every block except exactly the uncovered-type cases: a
list-valued `author`, or a scalar `author` together with a non-empty
list-valued `ORCID` (both raise an uncaught exception, aborting the batch). -/
theorem claim_C2_amended : ∀ data : Block,
    convert_to_multiauthor data = none ↔
      Block.get? data "authors" = none ∧
      ((∃ l, Block.get? data "author" = some (Value.seq l)) ∨
       (∃ s l, Block.get? data "author" = some (Value.scalar s) ∧
          Block.get? data "ORCID" = some (Value.seq l) ∧ l ≠ [])) := by
  intro data
  unfold convert_to_multiauthor
  by_cases ha : (Block.get? data "authors").isSome
  · rw [if_pos ha]
    constructor
    · intro h; exact Option.noConfusion h
    · rintro ⟨h0, _⟩
      rw [h0] at ha
      exact Bool.noConfusion ha
  · rw [if_neg ha]
    have ha' : Block.get? data "authors" = none := Option.not_isSome_iff_eq_none.mp ha
    cases hau : Block.get? data "author" with
    | none =>
      constructor
      · intro h; exact Option.noConfusion h
      · rintro ⟨_, h | h⟩
        · obtain ⟨l, hl⟩ := h
          exact Option.noConfusion hl
        · obtain ⟨s', l, hs', _⟩ := h
          exact Option.noConfusion hs'
    | some v =>
      cases v with
      | seq l =>
        constructor
        · intro _; exact ⟨ha', Or.inl ⟨l, rfl⟩⟩
        · intro _; rfl
      | scalar s =>
        cases ho : (Block.get? data "ORCID").getD (Value.scalar "") with
        | scalar o =>
          constructor
          · intro h; exact Option.noConfusion h
          · rintro ⟨_, h | h⟩
            · obtain ⟨l, hl⟩ := h
              injection hl with hl
              exact Value.noConfusion hl
            · obtain ⟨s', l, hs', hl, hlne⟩ := h
              rw [hl] at ho
              rw [Option.getD_some] at ho
              exact Value.noConfusion ho
        | seq l =>
          cases l with
          | nil =>
            constructor
            · intro h; exact Option.noConfusion h
            · rintro ⟨_, h | h⟩
              · obtain ⟨l', hl⟩ := h
                injection hl with hl
                exact Value.noConfusion hl
              · obtain ⟨s', l', hs', hl, hlne⟩ := h
                rw [hl, Option.getD_some] at ho
                injection ho with ho
                exact (hlne ho).elim
          | cons x xs =>
            constructor
            · intro _
              refine ⟨ha', Or.inr ⟨s, x :: xs, rfl, ?_, by simp⟩⟩
              cases horc : Block.get? data "ORCID" with
              | none =>
                rw [horc, Option.getD_none] at ho
                exact Value.noConfusion ho
              | some w =>
                rw [horc, Option.getD_some] at ho
                rw [ho]
            · intro _; rfl

/-- C7 (confirmed): the Writer's output is the serialized frontmatter with
the Reader-extracted remainder appended byte-for-byte — the transformation
touches only the frontmatter block. -/
theorem claim_C7 : ∀ (content : String) (data : Block) (rem : String),
    parse_yaml_frontmatter content = (some data, rem) →
    ∀ nd : NewBlock,
      write_yaml_frontmatter nd rem = write_yaml_frontmatter nd "" ++ rem := by
  intro content data rem _ nd
  apply strExt
  show (pyJoinNL _ ++ rem).data = ((pyJoinNL _ ++ "") ++ rem).data
  rw [strData_append, strData_append, strData_append]
  simp [show ("" : String).data = [] from rfl]

/-- Closed witness for `claim_C7`. -/
theorem claim_C7_witness :
    write_yaml_frontmatter [("title", NewValue.val (Value.scalar "t"))] "\nrest" =
      write_yaml_frontmatter [("title", NewValue.val (Value.scalar "t"))] "" ++ "\nrest" :=
  claim_C7 "---\na: b\n---\nrest" [("a", Value.scalar "b")] "\nrest" (by decide) _

/-- The authors of a conversion, unfolded. -/
theorem convertCore_authors (data : Block) (s o : String) :
    NewBlock.authors (convertCore data s o) =
      build_authors (parse_author_names s) (parse_orcids o)
        ((Block.get? data "institution").getD (Value.scalar "")) := by
  unfold convertCore
  exact authors_of_assemble _ _

/-- The author names of a conversion are the split pieces. -/
theorem convertCore_names (data : Block) (s o : String) :
    (NewBlock.authors (convertCore data s o)).map Author.name =
      parse_author_names s := by
  rw [convertCore_authors, build_authors_map_name]

/-- C8 is false as stated: the author value `"A, , B"` splits into the
pieces `A`, `` (empty), `B`, and the Converter emits an Author Entity whose
`name` is the empty string. -/
theorem claim_C8_counterexample :
    convert_to_multiauthor [("author", Value.scalar "A, , B")] =
      some (ConvertResult.converted
        [("layout", NewValue.val (Value.scalar "grant")),
         ("title", NewValue.val (Value.scalar "")),
         ("authors", NewValue.authorsList
           [{ name := "A", institution := none, orcid := none },
            { name := "", institution := none, orcid := none },
            { name := "B", institution := none, orcid := none }])]) := by
  decide

/-- C8 (corrected): every Author Entity's name is one of the trimmed split
pieces of the `author` value, in order; the names are non-empty only under
the additional assumption that every split piece is non-blank (an `author`
value such as `"A, , B"` or `" "` yields an empty name). -/
theorem claim_C8_amended : ∀ (data : Block) (nd : NewBlock),
    convert_to_multiauthor data = some (ConvertResult.converted nd) →
    ∃ s, Block.get? data "author" = some (Value.scalar s) ∧
      (NewBlock.authors nd).map Author.name = parse_author_names s ∧
      ((∀ p ∈ parse_author_names s, p ≠ "") →
        ∀ a ∈ NewBlock.authors nd, a.name ≠ "") := by
  intro data nd h
  unfold convert_to_multiauthor at h
  by_cases ha : (Block.get? data "authors").isSome
  · rw [if_pos ha] at h
    injection h with h
    exact ConvertResult.noConfusion h
  · rw [if_neg ha] at h
    cases hau : Block.get? data "author" with
    | none =>
      rw [hau] at h
      injection h with h
      exact ConvertResult.noConfusion h
    | some v =>
      rw [hau] at h
      cases v with
      | seq l => exact Option.noConfusion h
      | scalar s =>
        refine ⟨s, rfl, ?_⟩
        have key : ∃ o, nd = convertCore data s o := by
          cases ho : (Block.get? data "ORCID").getD (Value.scalar "") with
          | scalar o =>
            rw [ho] at h
            have h' : some (ConvertResult.converted (convertCore data s o)) =
                some (ConvertResult.converted nd) := h
            injection h' with h'
            injection h' with h'
            exact ⟨o, h'.symm⟩
          | seq l =>
            rw [ho] at h
            cases l with
            | nil =>
              have h' : some (ConvertResult.converted (convertCore data s "")) =
                  some (ConvertResult.converted nd) := h
              injection h' with h'
              injection h' with h'
              exact ⟨"", h'.symm⟩
            | cons x xs => exact Option.noConfusion h
        obtain ⟨o, rfl⟩ := key
        refine ⟨convertCore_names data s o, ?_⟩
        intro hpieces a hmem
        have hname : a.name ∈ (NewBlock.authors (convertCore data s o)).map Author.name :=
          List.mem_map_of_mem _ hmem
        rw [convertCore_names] at hname
        exact hpieces _ hname

/-- Closed witness for `claim_C8_amended`. -/
theorem claim_C8_witness :
    ∃ s, Block.get? [("author", Value.scalar "Jane")] "author" = some (Value.scalar s) ∧
      (NewBlock.authors
        [("layout", NewValue.val (Value.scalar "grant")),
         ("title", NewValue.val (Value.scalar "")),
         ("authors", NewValue.authorsList
           [{ name := "Jane", institution := none, orcid := none }])]).map Author.name =
        parse_author_names s ∧
      ((∀ p ∈ parse_author_names s, p ≠ "") →
        ∀ a ∈ NewBlock.authors
          [("layout", NewValue.val (Value.scalar "grant")),
           ("title", NewValue.val (Value.scalar "")),
           ("authors", NewValue.authorsList
             [{ name := "Jane", institution := none, orcid := none }])], a.name ≠ "") :=
  claim_C8_amended [("author", Value.scalar "Jane")] _ (by decide)

/-- C9 is false as stated: a document whose candidate closing `---` is only
the prefix of the longer line `---EXTRA` is still parsed as frontmatter (the
regex `^---\n(.*?)\n---` does not require the closing delimiter to be a full
line), with remainder `"EXTRA"`. -/
theorem claim_C9_counterexample :
    parse_yaml_frontmatter "---\nauthor: A\n---EXTRA" =
      (some [("author", Value.scalar "A")], "EXTRA") := by
  decide

/-- C9 (corrected): the Reader reports "no frontmatter" iff the text does
not start with the exact four characters `---\n` followed, somewhere later,
by the four characters `\n---`; the closing delimiter need only follow a
newline (it may be the prefix of a longer line), the block body is
everything before its first occurrence, and the remainder is everything
after those three dashes. -/
theorem claim_C9_amended : ∀ content : String,
    ((parse_yaml_frontmatter content).1 = none ↔
      ¬ (pyStartsWith content "---\n" = true ∧
         strContains (strDrop content 4) "\n---" = true)) ∧
    (∀ data rem, parse_yaml_frontmatter content = (some data, rem) →
      ∃ body : String,
        content = "---\n" ++ body ++ "\n---" ++ rem ∧
        strContains body "\n---" = false ∧
        data = parseYamlBody body) := by
  intro content
  by_cases hst : pyStartsWith content "---\n" = true
  · cases hf : findSub (strDrop content 4).data "\n---".data with
    | some j =>
      have hp : parse_yaml_frontmatter content =
          (some (parseYamlBody ⟨(strDrop content 4).data.take j⟩),
           ⟨(strDrop content 4).data.drop (j + 4)⟩) := by
        unfold parse_yaml_frontmatter
        rw [if_pos hst, hf]
      have hc : strContains (strDrop content 4) "\n---" = true := by
        show (findSub _ _).isSome = true
        rw [hf]
        rfl
      constructor
      · rw [hp]
        simp [hst, hc]
      · intro data rem h
        rw [hp] at h
        have h1 : parseYamlBody ⟨(strDrop content 4).data.take j⟩ = data := by
          have := congrArg Prod.fst h
          simpa using this
        have h2 : (⟨(strDrop content 4).data.drop (j + 4)⟩ : String) = rem := by
          have := congrArg Prod.snd h
          simpa using this
        obtain ⟨hprefixAt, hmin⟩ := findSub_eq_some hf
        obtain ⟨r', hr'⟩ := (startsGo_iff _ _).1 hprefixAt
        refine ⟨⟨(strDrop content 4).data.take j⟩, ?_, ?_, h1.symm⟩
        · apply strExt
          rw [strData_append, strData_append, strData_append, ← h2]
          simp only [List.append_assoc]
          show content.data = "---\n".data ++ ((strDrop content 4).data.take j ++
            ("\n---".data ++ (strDrop content 4).data.drop (j + 4)))
          obtain ⟨r, hr⟩ := (startsGo_iff _ _).1 hst
          have hX : (strDrop content 4).data = r := by
            show content.data.drop 4 = r
            rw [hr]
            have h4 : ("---\n".data).length = 4 := rfl
            rw [← h4]
            exact List.drop_left _ _
          have hcontent : content.data = "---\n".data ++ (strDrop content 4).data := by
            rw [hr, hX]
          have hdecomp : (strDrop content 4).data =
              (strDrop content 4).data.take j ++ ("\n---".data ++
                (strDrop content 4).data.drop (j + 4)) := by
            conv_lhs => rw [← List.take_append_drop j (strDrop content 4).data]
            congr 1
            rw [hr']
            congr 1
            have hr'' : r' = ((strDrop content 4).data.drop j).drop 4 := by
              rw [hr']
              have h4 : ("\n---".data).length = 4 := rfl
              rw [← h4]
              exact (List.drop_left _ _).symm
            rw [hr'', List.drop_drop]
          rw [hcontent]
          exact congrArg (fun t => "---\n".data ++ t) hdecomp
        · show (findSub _ _).isSome = false
          cases hfb : findSub ((strDrop content 4).data.take j) "\n---".data with
          | none => rfl
          | some i =>
            obtain ⟨hb1, _⟩ := findSub_eq_some hfb
            obtain ⟨r₂, hr₂⟩ := (startsGo_iff _ _).1 hb1
            have hlen : i + 4 ≤ ((strDrop content 4).data.take j).length := by
              have hlen' := congrArg List.length hr₂
              simp only [List.length_drop, List.length_append,
                show ("\n---".data).length = 4 from rfl] at hlen'
              omega
            have hij : i < j := by
              have := List.length_take j (strDrop content 4).data
              omega
            have : startsGo "\n---".data ((strDrop content 4).data.drop i) = true := by
              apply (startsGo_iff _ _).2
              refine ⟨r₂ ++ ((strDrop content 4).data.drop i).drop (j - i), ?_⟩
              have hdt : ((strDrop content 4).data.take j).drop i =
                  ((strDrop content 4).data.drop i).take (j - i) := List.drop_take j i _
              conv_lhs => rw [← List.take_append_drop (j - i) ((strDrop content 4).data.drop i)]
              rw [← hdt, hr₂, List.append_assoc]
            exact absurd this (by simp [hmin i hij])
    | none =>
      have hp : parse_yaml_frontmatter content = (none, content) := by
        unfold parse_yaml_frontmatter
        rw [if_pos hst, hf]
      have hc : strContains (strDrop content 4) "\n---" = false := by
        show (findSub _ _).isSome = false
        rw [hf]
        rfl
      constructor
      · rw [hp]
        simp [hst, hc]
      · intro data rem h
        rw [hp] at h
        have := congrArg Prod.fst h
        simp at this
  · have hp : parse_yaml_frontmatter content = (none, content) := by
      unfold parse_yaml_frontmatter
      rw [if_neg hst]
    constructor
    · rw [hp]
      simp [hst]
    · intro data rem h
      rw [hp] at h
      have := congrArg Prod.fst h
      simp at this

/-- Closed witness for `claim_C9_amended` on a well-formed document. -/
theorem claim_C9_witness :
    ∃ body : String,
      ("---\ntitle: T\n---\nbody" : String) = "---\n" ++ body ++ "\n---" ++ "\nbody" ∧
      strContains body "\n---" = false ∧
      [("title", Value.scalar "T")] = parseYamlBody body :=
  (claim_C9_amended "---\ntitle: T\n---\nbody").2 [("title", Value.scalar "T")] "\nbody"
    (by decide)

/-! ## Round-trip infrastructure for C1: the Reader's values are newline-free -/

theorem mem_partitionColon {a : Char} : ∀ cs : List Char,
    (a ∈ (partitionColon cs).1 → a ∈ cs) ∧ (a ∈ (partitionColon cs).2 → a ∈ cs) := by
  intro cs
  induction cs with
  | nil => simp [partitionColon]
  | cons c rest ih =>
    by_cases hc : c = ':'
    · rw [partitionColon, if_pos hc]
      exact ⟨fun h => absurd h (List.not_mem_nil a),
        fun h => List.mem_cons_of_mem _ h⟩
    · rw [partitionColon, if_neg hc]
      constructor
      · intro h
        rcases List.mem_cons.1 h with rfl | h'
        · exact List.mem_cons_self _ _
        · exact List.mem_cons_of_mem _ (ih.1 h')
      · intro h
        exact List.mem_cons_of_mem _ (ih.2 h)

theorem mem_stripQuotes {a : Char} {s : String}
    (h : a ∈ (stripQuotes s).data) : a ∈ s.data := by
  unfold stripQuotes at h
  by_cases h1 : (pyStartsWith s "\"" && pyEndsWith s "\"") = true
  · rw [if_pos h1] at h
    exact List.mem_of_mem_drop (List.mem_of_mem_dropLast h)
  · rw [if_neg h1] at h
    by_cases h2 : (pyStartsWith s "'" && pyEndsWith s "'") = true
    · rw [if_pos h2] at h
      exact List.mem_of_mem_drop (List.mem_of_mem_dropLast h)
    · rw [if_neg h2] at h
      exact h

theorem dictInsert_noNL {data : Block} {k : String} {v : Value}
    (hd : BlockNoNL data) (hv : ValueNoNL v) : BlockNoNL (dictInsert data k v) := by
  unfold dictInsert
  by_cases hany : data.any (·.1 = k) = true
  · rw [if_pos hany]
    intro p hp
    obtain ⟨q, hq, hpq⟩ := List.mem_map.1 hp
    by_cases hqk : q.1 = k
    · rw [if_pos hqk] at hpq
      rw [← hpq]
      exact hv
    · rw [if_neg hqk] at hpq
      rw [← hpq]
      exact hd q hq
  · rw [if_neg hany]
    intro p hp
    rcases List.mem_append.1 hp with h' | h'
    · exact hd p h'
    · rcases List.mem_cons.1 h' with rfl | h''
      · exact hv
      · exact absurd h'' (List.not_mem_nil p)

theorem appendToKey_noNL {data : Block} {k item : String}
    (hd : BlockNoNL data) (hitem : noNL item) : BlockNoNL (appendToKey data k item) := by
  unfold appendToKey
  intro p hp
  obtain ⟨q, hq, hpq⟩ := List.mem_map.1 hp
  by_cases hqk : q.1 = k
  · rw [if_pos hqk] at hpq
    rw [← hpq]
    cases hq2 : q.2 with
    | scalar s =>
      have := hd q hq
      rw [hq2] at this
      exact this
    | seq l =>
      intro x hx
      rcases List.mem_append.1 hx with h' | h'
      · have := hd q hq
        rw [hq2] at this
        exact this x h'
      · rcases List.mem_cons.1 h' with rfl | h''
        · exact hitem
        · exact absurd h'' (List.not_mem_nil x)
  · rw [if_neg hqk] at hpq
    rw [← hpq]
    exact hd q hq

theorem processLine_noNL {st : Block × Option String} {line : String}
    (hd : BlockNoNL st.1) (hline : '\n' ∉ line.data) :
    BlockNoNL (processLine st line).1 := by
  obtain ⟨data, cur⟩ := st
  unfold processLine
  by_cases c1 : pyStrip line = ""
  · rw [if_pos c1]; exact hd
  · rw [if_neg c1]
    by_cases c2 : pyStartsWith line "  - " = true
    · rw [if_pos c2]
      cases cur with
      | some k =>
        exact appendToKey_noNL hd
          (fun h => hline (List.mem_of_mem_drop (mem_pyStrip h)))
      | none => exact hd
    · rw [if_neg c2]
      by_cases c3 : pyStartsWith line "- " = true
      · rw [if_pos c3]
        cases cur with
        | some k =>
          exact appendToKey_noNL hd
            (fun h => hline (List.mem_of_mem_drop (mem_pyStrip h)))
        | none => exact hd
      · rw [if_neg c3]
        by_cases c4 : containsChar line ':' = true
        · rw [if_pos c4]
          dsimp only
          by_cases c5 : stripQuotes (pyStrip ⟨(partitionColon line.data).2⟩) = ""
          · rw [if_pos c5]
            exact dictInsert_noNL hd (by intro x hx; exact absurd hx (List.not_mem_nil x))
          · rw [if_neg c5]
            refine dictInsert_noNL hd ?_
            intro h
            exact hline ((mem_partitionColon line.data).2 (mem_pyStrip (mem_stripQuotes h)))
        · rw [if_neg c4]; exact hd

theorem foldl_processLine_noNL :
    ∀ (lines : List String) (st : Block × Option String),
      (∀ l ∈ lines, '\n' ∉ l.data) → BlockNoNL st.1 →
      BlockNoNL ((lines.foldl processLine st).1) := by
  intro lines
  induction lines with
  | nil => intro st _ hst; exact hst
  | cons l ls ih =>
    intro st hl hst
    rw [List.foldl_cons]
    exact ih _ (fun x hx => hl x (List.mem_cons_of_mem _ hx))
      (processLine_noNL hst (hl l (List.mem_cons_self _ _)))

theorem pySplit_NL_noNL {s : String} :
    ∀ l ∈ pySplit s "\n", '\n' ∉ l.data := by
  intro l hl
  obtain ⟨piece, hpc, hpl⟩ := List.mem_map.1 hl
  intro hmem
  rw [← hpl] at hmem
  exact mem_splitSub_single hpc hmem

theorem parseYamlBody_noNL (s : String) : BlockNoNL (parseYamlBody s) :=
  foldl_processLine_noNL _ _ pySplit_NL_noNL (by intro p hp; exact absurd hp (List.not_mem_nil p))

theorem parse_BlockNoNL {content : String} {data : Block} {rem : String}
    (h : parse_yaml_frontmatter content = (some data, rem)) : BlockNoNL data := by
  unfold parse_yaml_frontmatter at h
  by_cases hst : pyStartsWith content "---\n" = true
  · rw [if_pos hst] at h
    cases hf : findSub (strDrop content 4).data "\n---".data with
    | none =>
      rw [hf] at h
      have := congrArg Prod.fst h
      simp at this
    | some j =>
      rw [hf] at h
      have h1 := congrArg Prod.fst h
      simp only [Option.some.injEq] at h1
      rw [← h1]
      exact parseYamlBody_noNL _
  · rw [if_neg hst] at h
    have := congrArg Prod.fst h
    simp at this

/-! ## Round-trip infrastructure for C1: the converter's strings are newline-free -/

theorem pySplit_chars {s sep piece : String} (h : piece ∈ pySplit s sep)
    {a : Char} (ha : a ∈ piece.data) : a ∈ s.data := by
  obtain ⟨pc, hpc, hp⟩ := List.mem_map.1 h
  rw [← hp] at ha
  exact mem_splitSub_subset hpc ha

theorem names_noNL {s : String} (h : noNL s) :
    ∀ n ∈ parse_author_names s, noNL n := by
  intro n hn
  unfold parse_author_names at hn
  by_cases c1 : strContains s " and " = true
  · rw [if_pos c1] at hn
    obtain ⟨m, hm, hnm⟩ := List.mem_map.1 hn
    intro hx
    rw [← hnm] at hx
    exact h (pySplit_chars hm (mem_pyStrip hx))
  · rw [if_neg c1] at hn
    by_cases c2 : (strContains s ", " && !suffix_guard s) = true
    · rw [if_pos c2] at hn
      obtain ⟨m, hm, hnm⟩ := List.mem_map.1 hn
      intro hx
      rw [← hnm] at hx
      exact h (pySplit_chars hm (mem_pyStrip hx))
    · rw [if_neg c2] at hn
      rcases List.mem_cons.1 hn with rfl | h'
      · exact fun hx => h (mem_pyStrip hx)
      · exact absurd h' (List.not_mem_nil n)

theorem orcids_noNL {s : String} (h : noNL s) :
    ∀ n ∈ parse_orcids s, noNL n := by
  intro n hn
  unfold parse_orcids at hn
  by_cases c0 : s = ""
  · rw [if_pos c0] at hn
    exact absurd hn (List.not_mem_nil n)
  · rw [if_neg c0] at hn
    have hT : noNL (stripOrcidUrls s) := fun hx => h (mem_stripOrcidUrls hx)
    by_cases c1 : strContains (stripOrcidUrls s) " and " = true
    · rw [if_pos c1] at hn
      obtain ⟨m, hm, hnm⟩ := List.mem_map.1 hn
      intro hx
      rw [← hnm] at hx
      exact hT (pySplit_chars hm (mem_pyStrip hx))
    · rw [if_neg c1] at hn
      by_cases c2 : containsChar (stripOrcidUrls s) ';' = true
      · rw [if_pos c2] at hn
        obtain ⟨m, hm, hnm⟩ := List.mem_map.1 hn
        have hm' : m ∈ pySplit (stripOrcidUrls s) ";" := List.mem_of_mem_filter hm
        intro hx
        rw [← hnm] at hx
        exact hT (pySplit_chars hm' (mem_pyStrip (mem_rstripSemi hx)))
      · rw [if_neg c2] at hn
        by_cases c3 : containsChar (stripOrcidUrls s) ',' = true
        · rw [if_pos c3] at hn
          obtain ⟨m, hm, hnm⟩ := List.mem_map.1 hn
          intro hx
          rw [← hnm] at hx
          exact hT (pySplit_chars hm (mem_pyStrip hx))
        · rw [if_neg c3] at hn
          rcases List.mem_cons.1 hn with rfl | h'
          · exact fun hx => hT (mem_pyStrip hx)
          · exact absurd h' (List.not_mem_nil n)

theorem getElem?_mem_list {l : List String} {i : Nat} {x : String}
    (h : l[i]? = some x) : x ∈ l := by
  obtain ⟨hlt, he⟩ := List.getElem?_eq_some.mp h
  exact he ▸ l.getElem_mem hlt

theorem build_authors_AuthorNoNL {names orcids : List String} {inst : Value}
    (hn : ∀ n ∈ names, noNL n) (ho : ∀ o ∈ orcids, noNL o) (hi : ValueNoNL inst) :
    ∀ a ∈ build_authors names orcids inst, AuthorNoNL a := by
  intro a ha
  obtain ⟨p, hp, hpa⟩ := List.mem_map.1 ha
  rw [← hpa]
  refine ⟨hn p.2 (List.snd_mem_of_mem_enum hp), ?_, ?_⟩
  · intro o hoeq
    have hred : (mkAuthor p.1 p.2 orcids inst).orcid =
        (match orcids[p.1]? with
         | some o' =>
           if o' ≠ "" then
             if validOrcid (pyStrip o') = true then some (pyStrip o') else none
           else none
         | none => none) := rfl
    rw [hred] at hoeq
    cases hr : orcids[p.1]? with
    | none => rw [hr] at hoeq; exact Option.noConfusion hoeq
    | some raw =>
      rw [hr] at hoeq
      have hred2 : (match some raw with
          | some o' =>
            if o' ≠ "" then
              if validOrcid (pyStrip o') = true then some (pyStrip o') else none
            else none
          | none => (none : Option String)) =
          (if raw ≠ "" then
            if validOrcid (pyStrip raw) = true then some (pyStrip raw) else none
          else none) := rfl
      rw [hred2] at hoeq
      by_cases hraw : raw = ""
      · rw [if_neg (by simp [hraw])] at hoeq
        exact Option.noConfusion hoeq
      · rw [if_pos hraw] at hoeq
        by_cases hv : validOrcid (pyStrip raw) = true
        · rw [if_pos hv] at hoeq
          injection hoeq with hoeq
          rw [← hoeq]
          exact fun hx => ho raw (getElem?_mem_list hr) (mem_pyStrip hx)
        · rw [if_neg hv] at hoeq
          exact Option.noConfusion hoeq
  · intro v hveq
    have hred : (mkAuthor p.1 p.2 orcids inst).institution =
        (if p.1 = 0 ∧ inst.truthy = true then some inst else none) := rfl
    rw [hred] at hveq
    by_cases hc : p.1 = 0 ∧ inst.truthy = true
    · rw [if_pos hc] at hveq
      injection hveq with hveq
      rw [← hveq]
      exact hi
    · rw [if_neg hc] at hveq
      exact Option.noConfusion hveq

theorem get?_ValueNoNL {data : Block} {k : String} {v : Value}
    (hd : BlockNoNL data) (h : Block.get? data k = some v) : ValueNoNL v := by
  unfold Block.get? at h
  cases hf : data.find? (·.1 = k) with
  | none => rw [hf] at h; exact Option.noConfusion h
  | some p =>
    rw [hf] at h
    rw [Option.map_some'] at h
    injection h with h
    rw [← h]
    exact hd p (List.mem_of_find?_eq_some hf)

theorem getD_ValueNoNL {data : Block} {k : String} {d : Value}
    (hd : BlockNoNL data) (hdflt : ValueNoNL d) :
    ValueNoNL ((Block.get? data k).getD d) := by
  cases h : Block.get? data k with
  | none => exact hdflt
  | some v => exact get?_ValueNoNL hd h

theorem convertCore_NdNoNL {data : Block} {s o : String}
    (hd : BlockNoNL data) (hs : noNL s) (ho : noNL o) :
    NdNoNL (convertCore data s o) := by
  unfold convertCore
  intro p hp
  rw [newBlockAssemble_eq] at hp
  rcases List.mem_append.1 hp with h | h
  · rcases List.mem_cons.1 h with rfl | h'
    · exact getD_ValueNoNL hd (by intro hx; simp [noNL] at hx)
    · rcases List.mem_cons.1 h' with rfl | h''
      · exact getD_ValueNoNL hd (by intro hx; simp [noNL] at hx)
      · rcases List.mem_cons.1 h'' with rfl | h'''
        · exact build_authors_AuthorNoNL (names_noNL hs) (orcids_noNL ho)
            (getD_ValueNoNL hd (by intro hx; simp [noNL] at hx))
        · exact absurd h''' (List.not_mem_nil p)
  · obtain ⟨x, _, hx2⟩ := List.mem_map.1 h
    rw [← hx2]
    exact getD_ValueNoNL hd (by intro hx; simp [noNL] at hx)

/-! ## Round-trip infrastructure for C1: the writer emits good lines -/

theorem mem_replBackslash {a : Char} :
    ∀ cs : List Char, a ∈ replBackslash cs → a ∈ cs ∨ a = '\\' := by
  intro cs
  induction cs with
  | nil => intro h; exact absurd h (List.not_mem_nil a)
  | cons c rest ih =>
    intro h
    rw [replBackslash] at h
    rcases List.mem_append.1 h with h' | h'
    · by_cases hc : c = '\\'
      · rw [if_pos hc] at h'
        rcases List.mem_cons.1 h' with rfl | h''
        · exact Or.inr rfl
        · rcases List.mem_cons.1 h'' with rfl | h'''
          · exact Or.inr rfl
          · exact absurd h''' (List.not_mem_nil a)
      · rw [if_neg hc] at h'
        rcases List.mem_cons.1 h' with rfl | h''
        · exact Or.inl (List.mem_cons_self _ _)
        · exact absurd h'' (List.not_mem_nil a)
    · rcases ih h' with h'' | h''
      · exact Or.inl (List.mem_cons_of_mem _ h'')
      · exact Or.inr h''

theorem mem_replQuote {a : Char} :
    ∀ cs : List Char, a ∈ replQuote cs → a ∈ cs ∨ a = '\\' := by
  intro cs
  induction cs with
  | nil => intro h; exact absurd h (List.not_mem_nil a)
  | cons c rest ih =>
    intro h
    rw [replQuote] at h
    rcases List.mem_append.1 h with h' | h'
    · by_cases hc : c = '"'
      · rw [if_pos hc] at h'
        rcases List.mem_cons.1 h' with rfl | h''
        · exact Or.inr rfl
        · rcases List.mem_cons.1 h'' with rfl | h'''
          · exact Or.inl (hc ▸ List.mem_cons_self _ _)
          · exact absurd h''' (List.not_mem_nil a)
      · rw [if_neg hc] at h'
        rcases List.mem_cons.1 h' with rfl | h''
        · exact Or.inl (List.mem_cons_self _ _)
        · exact absurd h'' (List.not_mem_nil a)
    · rcases ih h' with h'' | h''
      · exact Or.inl (List.mem_cons_of_mem _ h'')
      · exact Or.inr h''

theorem fmt_noNL {s : String} (h : noNL s) : noNL (format_yaml_value s) := by
  unfold format_yaml_value
  by_cases hc : (containsChar s ':' || containsChar s '#' || pyStartsWith s "\"" ||
      containsChar s '\n') = true
  · rw [if_pos hc]
    intro hx
    rw [strData_append, strData_append] at hx
    rcases List.mem_append.1 hx with h' | h'
    · rcases List.mem_append.1 h' with h'' | h''
      · simp at h''
      · rcases mem_replQuote _ h'' with h3 | h3
        · rcases mem_replBackslash _ h3 with h4 | h4
          · exact h h4
          · exact absurd h4 (by decide)
        · exact absurd h3 (by decide)
    · simp at h'
  · rw [if_neg hc]
    exact h

theorem pyReprStr_noNL (s : String) : noNL (pyReprStr s) := by
  unfold pyReprStr
  intro hx
  simp only at hx
  set q : Char := if s.data.contains '\'' && !(s.data.contains '"') then '"' else '\''
    with hq
  have hqne : q ≠ '\n' := by
    rw [hq]
    by_cases hcond : (s.data.contains '\'' && !(s.data.contains '"')) = true
    · rw [if_pos hcond]; decide
    · rw [if_neg hcond]; decide
  rcases List.mem_cons.1 hx with h' | h'
  · exact hqne h'.symm
  · rcases List.mem_append.1 h' with h'' | h''
    · -- inside the escaped fold
      have key : ∀ (cs : List Char) (acc : List Char), '\n' ∉ acc →
          '\n' ∉ cs.foldr (fun c acc =>
            if c = '\\' then '\\' :: '\\' :: acc
            else if c = q then '\\' :: q :: acc
            else if c = '\n' then '\\' :: 'n' :: acc
            else if c = '\r' then '\\' :: 'r' :: acc
            else if c = '\t' then '\\' :: 't' :: acc
            else c :: acc) acc := by
        intro cs
        induction cs with
        | nil => intro acc hacc; exact hacc
        | cons c rest ih =>
          intro acc hacc
          rw [List.foldr_cons]
          intro hmem
          have hrec := ih acc hacc
          by_cases h1 : c = '\\'
          · rw [if_pos h1] at hmem
            rcases List.mem_cons.1 hmem with he | hmem2
            · exact absurd he (by decide)
            · rcases List.mem_cons.1 hmem2 with he | hmem3
              · exact absurd he (by decide)
              · exact hrec hmem3
          · rw [if_neg h1] at hmem
            by_cases h2 : c = q
            · rw [if_pos h2] at hmem
              rcases List.mem_cons.1 hmem with he | hmem2
              · exact absurd he (by decide)
              · rcases List.mem_cons.1 hmem2 with he | hmem3
                · exact hqne he.symm
                · exact hrec hmem3
            · rw [if_neg h2] at hmem
              by_cases h3 : c = '\n'
              · rw [if_pos h3] at hmem
                rcases List.mem_cons.1 hmem with he | hmem2
                · exact absurd he (by decide)
                · rcases List.mem_cons.1 hmem2 with he | hmem3
                  · exact absurd he (by decide)
                  · exact hrec hmem3
              · rw [if_neg h3] at hmem
                by_cases h4 : c = '\r'
                · rw [if_pos h4] at hmem
                  rcases List.mem_cons.1 hmem with he | hmem2
                  · exact absurd he (by decide)
                  · rcases List.mem_cons.1 hmem2 with he | hmem3
                    · exact absurd he (by decide)
                    · exact hrec hmem3
                · rw [if_neg h4] at hmem
                  by_cases h5 : c = '\t'
                  · rw [if_pos h5] at hmem
                    rcases List.mem_cons.1 hmem with he | hmem2
                    · exact absurd he (by decide)
                    · rcases List.mem_cons.1 hmem2 with he | hmem3
                      · exact absurd he (by decide)
                      · exact hrec hmem3
                  · rw [if_neg h5] at hmem
                    rcases List.mem_cons.1 hmem with he | hmem2
                    · exact h3 he.symm
                    · exact hrec hmem2
      exact key s.data [] (List.not_mem_nil _) h''
    · rcases List.mem_cons.1 h'' with he | h3
      · exact hqne he.symm
      · exact absurd h3 (List.not_mem_nil _)

theorem joinComma_noNL : ∀ l : List String, (∀ s ∈ l, noNL s) → noNL (joinComma l) := by
  intro l
  induction l with
  | nil => intro _ hx; exact absurd hx (List.not_mem_nil _)
  | cons s ss ih =>
    intro h
    cases ss with
    | nil => exact h s (List.mem_cons_self _ _)
    | cons s₂ ss' =>
      show noNL (s ++ ", " ++ joinComma (s₂ :: ss'))
      intro hx
      rw [strData_append, strData_append] at hx
      rcases List.mem_append.1 hx with h' | h'
      · rcases List.mem_append.1 h' with h'' | h''
        · exact h s (List.mem_cons_self _ _) h''
        · simp at h''
      · exact ih (fun x hxm => h x (List.mem_cons_of_mem _ hxm)) h'

theorem pyStrList_noNL (l : List String) : noNL (pyStrList l) := by
  unfold pyStrList
  intro hx
  rw [strData_append, strData_append] at hx
  rcases List.mem_append.1 hx with h' | h'
  · rcases List.mem_append.1 h' with h'' | h''
    · simp at h''
    · refine joinComma_noNL _ ?_ h''
      intro x hxm
      obtain ⟨y, _, hy2⟩ := List.mem_map.1 hxm
      rw [← hy2]
      exact pyReprStr_noNL y
  · simp at h'

theorem head?_append_left {a b : List Char} (h : a ≠ []) :
    (a ++ b).head? = a.head? := by
  cases a with
  | nil => exact absurd rfl h
  | cons c cs => rfl

/-- A line of the form `pre ++ v` with a good constant prefix is good. -/
theorem goodline_of_lit (pre : String) (hpre : pre.data ≠ [] ∧ '\n' ∉ pre.data ∧
    pre.data.head? ≠ some '-') {v : String} (hv : noNL v) :
    GoodLine (pre ++ v).data := by
  rw [strData_append]
  refine ⟨by simp [hpre.1], ?_, ?_⟩
  · intro hx
    rcases List.mem_append.1 hx with h' | h'
    · exact hpre.2.1 h'
    · exact hv h'
  · rw [head?_append_left hpre.1]
    exact hpre.2.2

theorem authorLines_good {a : Author} (ha : AuthorNoNL a) :
    ∀ line ∈ authorLines a, GoodLine line.data := by
  intro line hl
  unfold authorLines at hl
  rcases List.mem_append.1 hl with h' | h'
  · rcases List.mem_append.1 h' with h'' | h''
    · rcases List.mem_cons.1 h'' with rfl | h3
      · exact goodline_of_lit "  - name: " (by decide) (fmt_noNL ha.1)
      · exact absurd h3 (List.not_mem_nil _)
    · cases ho : a.orcid with
      | none => rw [ho] at h''; exact absurd h'' (List.not_mem_nil _)
      | some o =>
        rw [ho] at h''
        rcases List.mem_cons.1 h'' with rfl | h3
        · exact goodline_of_lit "    orcid: " (by decide) (ha.2.1 o ho)
        · exact absurd h3 (List.not_mem_nil _)
  · cases hi : a.institution with
    | none => rw [hi] at h'; exact absurd h' (List.not_mem_nil _)
    | some v =>
      rw [hi] at h'
      cases v with
      | scalar s =>
        rcases List.mem_cons.1 h' with rfl | h3
        · exact goodline_of_lit "    institution: " (by decide)
            (fmt_noNL (ha.2.2 _ hi))
        · exact absurd h3 (List.not_mem_nil _)
      | seq l =>
        rcases List.mem_cons.1 h' with rfl | h3
        · exact goodline_of_lit "    institution: " (by decide) (pyStrList_noNL l)
        · exact absurd h3 (List.not_mem_nil _)

theorem tenKeys_good : ∀ k ∈ tenKeys,
    k.data ≠ [] ∧ '\n' ∉ k.data ∧ k.data.head? ≠ some '-' := by decide

theorem entryLines_good {k : String} {v : NewValue}
    (hk : k ∈ tenKeys) (hv : NewValueNoNL v) :
    ∀ line ∈ entryLines (k, v), GoodLine line.data := by
  intro line hl
  have hkg := tenKeys_good k hk
  cases v with
  | authorsList as =>
    rcases List.mem_cons.1 hl with rfl | h'
    · exact ⟨by decide, by decide, by decide⟩
    · obtain ⟨a, ha, hla⟩ := List.mem_flatMap.1 h'
      exact authorLines_good (hv a ha) line hla
  | val w =>
    cases w with
    | scalar s =>
      rcases List.mem_cons.1 hl with rfl | h'
      · have : (k ++ ": " ++ format_yaml_value s) = k ++ (": " ++ format_yaml_value s) := by
          rw [String.append_assoc]
        rw [this]
        refine goodline_of_lit k hkg ?_
        intro hx
        rw [strData_append] at hx
        rcases List.mem_append.1 hx with h'' | h''
        · simp at h''
        · exact fmt_noNL hv h''
      · exact absurd h' (List.not_mem_nil _)
    | seq items =>
      rcases List.mem_cons.1 hl with rfl | h'
      · exact goodline_of_lit k hkg (by intro hx; simp [noNL] at hx)
      · obtain ⟨it, _, hit2⟩ := List.mem_map.1 h'
        rw [← hit2]
        exact goodline_of_lit "  - " (by decide) (fmt_noNL (hv it (by assumption)))

theorem entryLines_ne_nil (e : String × NewValue) : entryLines e ≠ [] := by
  obtain ⟨k, v⟩ := e
  cases v with
  | authorsList as => simp [entryLines]
  | val w => cases w <;> simp [entryLines]

/-! ## Round-trip infrastructure for C1: re-parsing the writer's output -/

theorem intercalateNL_cons_of_ne (l : List Char) (ls : List (List Char)) (h : ls ≠ []) :
    intercalateNL (l :: ls) = l ++ '\n' :: intercalateNL ls := by
  cases ls with
  | nil => exact absurd rfl h
  | cons a as => rfl

theorem intercalateNL_head (ls : List (List Char)) (l₂ : List Char) :
    ∃ T, intercalateNL (l₂ :: ls) = l₂ ++ T := by
  cases ls with
  | nil => exact ⟨[], by simp [intercalateNL]⟩
  | cons a as => exact ⟨'\n' :: intercalateNL (a :: as), rfl⟩

theorem intercalateNL_append_last :
    ∀ (ls : List (List Char)), ls ≠ [] → ∀ d,
      intercalateNL (ls ++ [d]) = intercalateNL ls ++ '\n' :: d := by
  intro ls
  induction ls with
  | nil => intro h; exact absurd rfl h
  | cons x xs ih =>
    intro _ d
    cases xs with
    | nil => rfl
    | cons y ys =>
      show intercalateNL (x :: ((y :: ys) ++ [d])) = _
      rw [intercalateNL_cons_of_ne x ((y :: ys) ++ [d]) (by simp), ih (by simp) d,
        intercalateNL_cons_of_ne x (y :: ys) (by simp)]
      simp [List.append_assoc]

theorem startsGo_nl_drop_false {l : List Char} (hl : '\n' ∉ l) {i : Nat}
    (hi : i < l.length) (tail : List Char) :
    startsGo ['\n', '-', '-', '-'] ((l ++ tail).drop i) = false := by
  rw [List.drop_append_of_le_length (Nat.le_of_lt hi)]
  cases hd : l.drop i with
  | nil =>
    have := congrArg List.length hd
    simp only [List.length_drop, List.length_nil] at this
    omega
  | cons d ds =>
    have hdl : d ∈ l := List.mem_of_mem_drop (hd ▸ List.mem_cons_self d ds)
    have hdn : d ≠ '\n' := fun h => hl (h ▸ hdl)
    show ('\n' == d && startsGo ['-', '-', '-'] (ds ++ tail)) = false
    rw [show ('\n' == d) = false from beq_eq_false_iff_ne.mpr (Ne.symm hdn),
      Bool.false_and]

theorem noOcc : ∀ (lines : List (List Char)), (∀ l ∈ lines, GoodLine l) →
    ∀ (rest : List Char) (i : Nat), i < (intercalateNL lines).length →
      startsGo ['\n', '-', '-', '-'] ((intercalateNL lines ++ '\n' :: rest).drop i) =
        false := by
  intro lines
  induction lines with
  | nil => intro _ rest i hi; simp [intercalateNL] at hi
  | cons l ls ih =>
    intro hg rest i hi
    cases ls with
    | nil =>
      have hJ : intercalateNL [l] = l := rfl
      rw [hJ] at hi ⊢
      exact startsGo_nl_drop_false (hg l (List.mem_cons_self _ _)).2.1 hi _
    | cons l₂ ls' =>
      have hJ : intercalateNL (l :: l₂ :: ls') = l ++ '\n' :: intercalateNL (l₂ :: ls') :=
        rfl
      rw [hJ] at hi ⊢
      have hre : (l ++ '\n' :: intercalateNL (l₂ :: ls')) ++ '\n' :: rest =
          l ++ ('\n' :: (intercalateNL (l₂ :: ls') ++ '\n' :: rest)) := by
        simp [List.append_assoc]
      rw [hre]
      by_cases h1 : i < l.length
      · exact startsGo_nl_drop_false (hg l (List.mem_cons_self _ _)).2.1 h1 _
      · by_cases h2 : i = l.length
        · subst h2
          rw [List.drop_left]
          show ('\n' == '\n' &&
            startsGo ['-', '-', '-'] (intercalateNL (l₂ :: ls') ++ '\n' :: rest)) = false
          rw [show ('\n' == '\n') = true from rfl, Bool.true_and]
          obtain ⟨T, hT⟩ := intercalateNL_head ls' l₂
          rw [hT, List.append_assoc]
          have hl₂ := hg l₂ (List.mem_cons_of_mem _ (List.mem_cons_self _ _))
          cases hc2 : l₂ with
          | nil => exact absurd hc2 hl₂.1
          | cons d ds =>
            show ('-' == d && startsGo ['-', '-'] (ds ++ (T ++ '\n' :: rest))) = false
            have hdn : d ≠ '-' := by
              intro hc
              apply hl₂.2.2
              rw [hc2, hc]
              rfl
            rw [show ('-' == d) = false from beq_eq_false_iff_ne.mpr (Ne.symm hdn),
              Bool.false_and]
        · obtain ⟨i', rfl⟩ : ∃ i', i = l.length + 1 + i' :=
            ⟨i - l.length - 1, by omega⟩
          have hi' : i' < (intercalateNL (l₂ :: ls')).length := by
            rw [List.length_append, List.length_cons] at hi
            omega
          have hdrop : (l ++ ('\n' :: (intercalateNL (l₂ :: ls') ++ '\n' :: rest))).drop
              (l.length + 1 + i') =
              (intercalateNL (l₂ :: ls') ++ '\n' :: rest).drop i' := by
            rw [show l ++ ('\n' :: (intercalateNL (l₂ :: ls') ++ '\n' :: rest)) =
              (l ++ ['\n']) ++ (intercalateNL (l₂ :: ls') ++ '\n' :: rest) from by simp,
              show l.length + 1 + i' = (l ++ ['\n']).length + i' from by simp]
            exact List.drop_append i'
          rw [hdrop]
          exact ih (fun x hx => hg x (List.mem_cons_of_mem _ hx)) rest i' hi'

theorem findSub_write (lines : List (List Char)) (_h1 : lines ≠ [])
    (hg : ∀ l ∈ lines, GoodLine l) (rest : List Char) :
    findSub (intercalateNL lines ++ '\n' :: '-' :: '-' :: '-' :: rest) "\n---".data =
      some (intercalateNL lines).length := by
  apply findSub_spec_unique
  · rw [List.drop_left]
    exact (startsGo_iff _ _).2 ⟨rest, rfl⟩
  · intro i hi
    exact noOcc lines hg ('-' :: '-' :: '-' :: rest) i hi

theorem write_data (nd : NewBlock) (rem : String)
    (h : nd.flatMap entryLines ≠ []) :
    (write_yaml_frontmatter nd rem).data =
      '-' :: '-' :: '-' :: '\n' ::
        (intercalateNL ((nd.flatMap entryLines).map (·.data)) ++
         '\n' :: '-' :: '-' :: '-' :: rem.data) := by
  unfold write_yaml_frontmatter
  rw [strData_append]
  unfold pyJoinNL
  show intercalateNL ((["---"] ++ nd.flatMap entryLines ++ ["---"]).map (·.data)) ++
      rem.data = _
  have hmapne : (nd.flatMap entryLines).map (·.data) ≠ [] := by simpa using h
  have hsplit : ((["---"] ++ nd.flatMap entryLines ++ ["---"]).map
      (fun x : String => x.data)) =
      ['-', '-', '-'] :: ((nd.flatMap entryLines).map (fun x : String => x.data) ++
        [['-', '-', '-']]) := by
    rw [List.map_append, List.map_append]
    rfl
  rw [hsplit, intercalateNL_cons_of_ne _ _ (by simp),
    intercalateNL_append_last _ hmapne]
  simp [List.append_assoc]

theorem pySplit_join (lines : List String) (h1 : lines ≠ [])
    (h : ∀ l ∈ lines, noNL l) :
    pySplit (pyJoinNL lines) "\n" = lines := by
  unfold pySplit pyJoinNL
  show (splitSub ['\n'] (intercalateNL (lines.map (·.data)))).map
      (fun l => (⟨l⟩ : String)) = lines
  rw [splitSub_NL_join (lines.map (·.data)) (by simpa using h1)
    (by
      intro l hl
      obtain ⟨x, hx, hxl⟩ := List.mem_map.1 hl
      rw [← hxl]
      exact h x hx)]
  rw [List.map_map]
  rw [show ((fun l => (⟨l⟩ : String)) ∘ fun s : String => s.data) = id from by
    funext s; rfl]
  exact List.map_id lines

theorem parse_write (nd : NewBlock) (rem : String)
    (hne : nd.flatMap entryLines ≠ [])
    (hg : ∀ line ∈ nd.flatMap entryLines, GoodLine line.data) :
    parse_yaml_frontmatter (write_yaml_frontmatter nd rem) =
      (some (((nd.flatMap entryLines).foldl processLine ([], none)).1), rem) := by
  have hw := write_data nd rem hne
  have hst : pyStartsWith (write_yaml_frontmatter nd rem) "---\n" = true :=
    (startsGo_iff _ _).2 ⟨_, hw⟩
  have hdrop : (strDrop (write_yaml_frontmatter nd rem) 4).data =
      intercalateNL ((nd.flatMap entryLines).map (·.data)) ++
        '\n' :: '-' :: '-' :: '-' :: rem.data := by
    show (write_yaml_frontmatter nd rem).data.drop 4 = _
    rw [hw]
    rfl
  have hgood : ∀ l ∈ (nd.flatMap entryLines).map (·.data), GoodLine l := by
    intro l hl
    obtain ⟨x, hx, hxl⟩ := List.mem_map.1 hl
    rw [← hxl]
    exact hg x hx
  have hf : findSub (strDrop (write_yaml_frontmatter nd rem) 4).data "\n---".data =
      some (intercalateNL ((nd.flatMap entryLines).map (·.data))).length := by
    rw [hdrop]
    exact findSub_write _ (by simpa using hne) hgood rem.data
  have hp : parse_yaml_frontmatter (write_yaml_frontmatter nd rem) =
      (some (parseYamlBody ⟨(strDrop (write_yaml_frontmatter nd rem) 4).data.take
        (intercalateNL ((nd.flatMap entryLines).map (·.data))).length⟩),
       ⟨(strDrop (write_yaml_frontmatter nd rem) 4).data.drop
        ((intercalateNL ((nd.flatMap entryLines).map (·.data))).length + 4)⟩) := by
    unfold parse_yaml_frontmatter
    rw [if_pos hst, hf]
  rw [hp]
  congr 1
  · congr 1
    have htake : (strDrop (write_yaml_frontmatter nd rem) 4).data.take
        (intercalateNL ((nd.flatMap entryLines).map (·.data))).length =
        intercalateNL ((nd.flatMap entryLines).map (·.data)) := by
      rw [hdrop]
      exact List.take_left _ _
    rw [htake]
    rw [show (⟨intercalateNL ((nd.flatMap entryLines).map (·.data))⟩ : String) =
      pyJoinNL (nd.flatMap entryLines) from rfl]
    unfold parseYamlBody
    rw [pySplit_join _ hne (fun l hl => (hg l hl).2.1)]
  · apply strExt
    show (strDrop (write_yaml_frontmatter nd rem) 4).data.drop
      ((intercalateNL ((nd.flatMap entryLines).map (·.data))).length + 4) = rem.data
    rw [hdrop, List.drop_append 4]
    rfl

/-! ## Round-trip infrastructure for C1: the `authors` key survives re-parsing -/

theorem dictInsert_keys_mono {data : Block} {k₀ : String} {v : Value} {k : String}
    (h : k ∈ data.map Prod.fst) : k ∈ (dictInsert data k₀ v).map Prod.fst := by
  unfold dictInsert
  by_cases hany : data.any (·.1 = k₀) = true
  · rw [if_pos hany]
    obtain ⟨p, hp, hpk⟩ := List.mem_map.1 h
    refine List.mem_map.2
      ⟨(fun p => if p.1 = k₀ then (k₀, v) else p) p, List.mem_map_of_mem _ hp, ?_⟩
    by_cases hpk0 : p.1 = k₀
    · simp only [if_pos hpk0]
      rw [← hpk0]
      exact hpk
    · simp only [if_neg hpk0]
      exact hpk
  · rw [if_neg hany, List.map_append]
    exact List.mem_append_left _ h

theorem dictInsert_key_self (data : Block) (k₀ : String) (v : Value) :
    k₀ ∈ (dictInsert data k₀ v).map Prod.fst := by
  unfold dictInsert
  by_cases hany : data.any (·.1 = k₀) = true
  · rw [if_pos hany]
    obtain ⟨p, hp, hpk⟩ := List.any_eq_true.1 hany
    refine List.mem_map.2 ⟨(k₀, v), ?_, rfl⟩
    have hm := List.mem_map_of_mem (fun p => if p.1 = k₀ then (k₀, v) else p) hp
    simp only at hm
    rw [if_pos (of_decide_eq_true hpk)] at hm
    exact hm
  · rw [if_neg hany, List.map_append]
    apply List.mem_append_right
    simp

theorem appendToKey_keys (data : Block) (k₀ item : String) :
    (appendToKey data k₀ item).map Prod.fst = data.map Prod.fst := by
  unfold appendToKey
  rw [List.map_map]
  apply List.map_congr_left
  intro p _
  by_cases hp : p.1 = k₀
  · rw [Function.comp_apply, if_pos hp]
  · rw [Function.comp_apply, if_neg hp]

theorem processLine_keys_mono {st : Block × Option String} {line : String} {k : String}
    (h : k ∈ st.1.map Prod.fst) : k ∈ (processLine st line).1.map Prod.fst := by
  obtain ⟨data, cur⟩ := st
  unfold processLine
  by_cases c1 : pyStrip line = ""
  · rw [if_pos c1]; exact h
  · rw [if_neg c1]
    by_cases c2 : pyStartsWith line "  - " = true
    · rw [if_pos c2]
      cases cur with
      | some k' => rw [appendToKey_keys]; exact h
      | none => exact h
    · rw [if_neg c2]
      by_cases c3 : pyStartsWith line "- " = true
      · rw [if_pos c3]
        cases cur with
        | some k' => rw [appendToKey_keys]; exact h
        | none => exact h
      · rw [if_neg c3]
        by_cases c4 : containsChar line ':' = true
        · rw [if_pos c4]
          dsimp only
          by_cases c5 : stripQuotes (pyStrip ⟨(partitionColon line.data).2⟩) = ""
          · rw [if_pos c5]
            exact dictInsert_keys_mono h
          · rw [if_neg c5]
            exact dictInsert_keys_mono h
        · rw [if_neg c4]; exact h

theorem foldl_keys_mono :
    ∀ (lines : List String) (st : Block × Option String) (k : String),
      k ∈ st.1.map Prod.fst → k ∈ ((lines.foldl processLine st).1).map Prod.fst := by
  intro lines
  induction lines with
  | nil => intro st k h; exact h
  | cons l ls ih =>
    intro st k h
    rw [List.foldl_cons]
    exact ih _ k (processLine_keys_mono h)

theorem processLine_authorsLine (d : Block) (c : Option String) :
    processLine (d, c) "authors:" =
      (dictInsert d "authors" (Value.seq []), some "authors") := rfl

theorem foldl_authors_mem (pre post : List String) (st : Block × Option String) :
    "authors" ∈ (((pre ++ "authors:" :: post).foldl processLine st).1).map Prod.fst := by
  rw [List.foldl_append, List.foldl_cons]
  apply foldl_keys_mono
  cases hst' : pre.foldl processLine st with
  | mk d c =>
    rw [processLine_authorsLine]
    exact dictInsert_key_self d "authors" (Value.seq [])

theorem convert_unchanged_of_authors {d2 : Block}
    (h : "authors" ∈ d2.map Prod.fst) :
    convert_to_multiauthor d2 = some (ConvertResult.unchanged d2) := by
  have hs : (Block.get? d2 "authors").isSome = true := by
    unfold Block.get?
    rw [Option.isSome_map']
    obtain ⟨p, hp, hpk⟩ := List.mem_map.1 h
    exact List.find?_isSome.2 ⟨p, hp, by simp [hpk]⟩
  unfold convert_to_multiauthor
  rw [if_pos hs]

theorem converted_inv {data : Block} {nd : NewBlock}
    (h : convert_to_multiauthor data = some (ConvertResult.converted nd)) :
    ∃ s o : String, nd = convertCore data s o ∧
      Block.get? data "author" = some (Value.scalar s) ∧
      (o = "" ∨ Block.get? data "ORCID" = some (Value.scalar o)) := by
  unfold convert_to_multiauthor at h
  by_cases ha : (Block.get? data "authors").isSome
  · rw [if_pos ha] at h
    injection h with h
    exact ConvertResult.noConfusion h
  · rw [if_neg ha] at h
    cases hau : Block.get? data "author" with
    | none =>
      rw [hau] at h
      injection h with h
      exact ConvertResult.noConfusion h
    | some v =>
      rw [hau] at h
      cases v with
      | seq l => exact Option.noConfusion h
      | scalar s =>
        cases horc : Block.get? data "ORCID" with
        | none =>
          rw [horc] at h
          have h' : some (ConvertResult.converted (convertCore data s "")) =
              some (ConvertResult.converted nd) := h
          injection h' with h'
          injection h' with h'
          exact ⟨s, "", h'.symm, rfl, Or.inl rfl⟩
        | some w =>
          rw [horc] at h
          cases w with
          | scalar o =>
            have h' : some (ConvertResult.converted (convertCore data s o)) =
                some (ConvertResult.converted nd) := h
            injection h' with h'
            injection h' with h'
            exact ⟨s, o, h'.symm, rfl, Or.inr rfl⟩
          | seq l =>
            cases l with
            | nil =>
              have h' : some (ConvertResult.converted (convertCore data s "")) =
                  some (ConvertResult.converted nd) := h
              injection h' with h'
              injection h' with h'
              exact ⟨s, "", h'.symm, rfl, Or.inl rfl⟩
            | cons x xs => exact Option.noConfusion h

/-- The serialized body of a conversion, decomposed around the `authors:` line. -/
theorem convertCore_flatMap (data : Block) (s o : String) :
    (convertCore data s o).flatMap entryLines =
      (entryLines ("layout",
          NewValue.val ((Block.get? data "layout").getD (Value.scalar "grant"))) ++
        entryLines ("title",
          NewValue.val ((Block.get? data "title").getD (Value.scalar "")))) ++
      "authors:" ::
        ((build_authors (parse_author_names s) (parse_orcids o)
            ((Block.get? data "institution").getD (Value.scalar ""))).flatMap authorLines ++
          ((passKeys.filter (presentTruthy data)).map
            (fun k => (k, NewValue.val ((Block.get? data k).getD (Value.scalar ""))))).flatMap
            entryLines) := by
  unfold convertCore
  rw [newBlockAssemble_eq]
  simp [List.flatMap_cons, List.flatMap_append, entryLines, List.append_assoc]

/-- C1 (confirmed): a block that already has `authors`, or has neither
`author` nor `authors`, is returned unchanged with `changed = false`; and
for every document whose migration produced `changed = true`, re-parsing the
Writer's output and converting again returns that re-parsed block unchanged
with `changed = false` — migration is a no-op on migrated files. -/
theorem claim_C1 :
    (∀ data : Block,
      ((Block.get? data "authors").isSome = true ∨
        (Block.get? data "authors" = none ∧ Block.get? data "author" = none)) →
      convert_to_multiauthor data = some (ConvertResult.unchanged data)) ∧
    (∀ (content : String) (data : Block) (rem : String) (nd : NewBlock),
      parse_yaml_frontmatter content = (some data, rem) →
      convert_to_multiauthor data = some (ConvertResult.converted nd) →
      ∃ d2 : Block,
        parse_yaml_frontmatter (write_yaml_frontmatter nd rem) = (some d2, rem) ∧
        convert_to_multiauthor d2 = some (ConvertResult.unchanged d2)) := by
  constructor
  · intro data h
    unfold convert_to_multiauthor
    rcases h with h | ⟨h1, h2⟩
    · rw [if_pos h]
    · rw [if_neg (by simp [h1]), h2]
  · intro content data rem nd hparse hconv
    obtain ⟨s, o, rfl, hau, ho⟩ := converted_inv hconv
    have hd : BlockNoNL data := parse_BlockNoNL hparse
    have hs : noNL s := get?_ValueNoNL hd hau
    have hoNL : noNL o := by
      rcases ho with rfl | horc
      · intro hx
        exact absurd hx (by decide)
      · exact get?_ValueNoNL hd horc
    have hnd : NdNoNL (convertCore data s o) := convertCore_NdNoNL hd hs hoNL
    have hkeys : ∀ k, k ∈ (convertCore data s o).map Prod.fst → k ∈ tenKeys :=
      newBlockAssemble_keys data _
    have hgood : ∀ line ∈ (convertCore data s o).flatMap entryLines,
        GoodLine line.data := by
      intro line hl
      obtain ⟨e, he, hle⟩ := List.mem_flatMap.1 hl
      exact entryLines_good (hkeys e.1 (List.mem_map_of_mem _ he)) (hnd e he) line hle
    have hne : (convertCore data s o).flatMap entryLines ≠ [] := by
      rw [convertCore_flatMap]
      simp
    refine ⟨(((convertCore data s o).flatMap entryLines).foldl processLine
      ([], none)).1, parse_write _ rem hne hgood, ?_⟩
    apply convert_unchanged_of_authors
    rw [convertCore_flatMap]
    exact foldl_authors_mem _ _ _

/-- Closed witness for `claim_C1`: the full pipeline on a concrete document. -/
theorem claim_C1_witness :
    ∃ d2 : Block,
      parse_yaml_frontmatter (write_yaml_frontmatter
        [("layout", NewValue.val (Value.scalar "grant")),
         ("title", NewValue.val (Value.scalar "")),
         ("authors", NewValue.authorsList
           [{ name := "Jane", institution := none, orcid := none }])] "\nbody") =
        (some d2, "\nbody") ∧
      convert_to_multiauthor d2 = some (ConvertResult.unchanged d2) :=
  claim_C1.2 "---\nauthor: Jane\n---\nbody" [("author", Value.scalar "Jane")] "\nbody"
    _ (by decide) (by decide)

end Ogrants
